import Mathlib

/-!
# NORTH + EAST + SOUTH + WEST = EARTH

A shallow embedding of `src/main.cpp`: the nested exclusion search
`solve_range`, the round-robin partition of the valid `T` values over the
worker threads, and the repeated-run harness `runMultipleTimes`.

Conventions of the embedding.

* C++ `int` digits and word values are `Nat`: every value the search computes
  is a sum of non-negative terms, and the bit operations `<<`, `|`, `&` are the
  ones of `Nat`.
* A `for (int d = 0; d <= 9; ++d)` loop whose body may `continue` is a left
  fold over `List.range 10` that threads the state of the enclosing scope.
* An entry of the C++ `vector<string> solutions` is kept as the pair of the
  label read from the counter and the letter binding it was formatted from;
  `render` gives the text that the `stringstream` builds from that pair.
* Threads are modelled by a step function on a configuration of workers, and a
  run by an arbitrary finite schedule of such steps.
* Where the width of `int` matters, the same expressions are read once more with
  every intermediate result wrapped to 32 bits (`NORTH_int32` and its siblings)
  and compared with the unbounded reading.
-/

namespace Cryptarithm

/-! ## Data model -/

/-- A binding of the ten letters to digits. -/
structure Assignment where
  N : Nat
  O : Nat
  R : Nat
  T : Nat
  H : Nat
  E : Nat
  A : Nat
  S : Nat
  W : Nat
  U : Nat
deriving DecidableEq

/-- Line 66: `N * 10000 + O * 1000 + R * 100 + T * 10 + H`. -/
def NORTH (a : Assignment) : Nat := a.N * 10000 + a.O * 1000 + a.R * 100 + a.T * 10 + a.H

/-- Line 67: `E * 1000 + A * 100 + S * 10 + T`. -/
def EAST (a : Assignment) : Nat := a.E * 1000 + a.A * 100 + a.S * 10 + a.T

/-- Line 68: `S * 10000 + O * 1000 + U * 100 + T * 10 + H`. -/
def SOUTH (a : Assignment) : Nat := a.S * 10000 + a.O * 1000 + a.U * 100 + a.T * 10 + a.H

/-- Line 69: `W * 1000 + E * 100 + S * 10 + T`. -/
def WEST (a : Assignment) : Nat := a.W * 1000 + a.E * 100 + a.S * 10 + a.T

/-- Line 70: `E * 10000 + A * 1000 + R * 100 + T * 10 + H`. -/
def EARTH (a : Assignment) : Nat := a.E * 10000 + a.A * 1000 + a.R * 100 + a.T * 10 + a.H

/-- Line 73: the test `NORTH + EAST + SOUTH + WEST == EARTH`. -/
def equation_holds (a : Assignment) : Bool :=
  NORTH a + EAST a + SOUTH a + WEST a == EARTH a

/-- Lines 20 and 119: `(10 - (2 * T % 10)) % 10`. -/
def derived_H (T : Nat) : Nat := (10 - (2 * T % 10)) % 10

/-- An element of `solutions`: the label streamed from the counter and the binding. -/
structure SolutionRecord where
  index : Nat
  asg : Assignment
deriving DecidableEq

/-- The globals `total_solutions` and the vector `solutions` shared by the workers. -/
structure Shared where
  total_solutions : Nat
  solutions : List SolutionRecord
deriving DecidableEq

/-- Streaming a digit with `<<`. -/
def digit_text (d : Nat) : String := toString d

/-- Lines 78-81: the text built in the `stringstream`. -/
def render (r : SolutionRecord) : String :=
  let a := r.asg
  "Solution " ++ toString r.index ++ ":\n"
    ++ "NORTH (" ++ digit_text a.N ++ digit_text a.O ++ digit_text a.R ++ digit_text a.T
    ++ digit_text a.H
    ++ ") + EAST (" ++ digit_text a.E ++ digit_text a.A ++ digit_text a.S ++ digit_text a.T
    ++ ") + SOUTH (" ++ digit_text a.S ++ digit_text a.O ++ digit_text a.U ++ digit_text a.T
    ++ digit_text a.H
    ++ ") + WEST (" ++ digit_text a.W ++ digit_text a.E ++ digit_text a.S ++ digit_text a.T
    ++ ") = EARTH (" ++ digit_text a.E ++ digit_text a.A ++ digit_text a.R ++ digit_text a.T
    ++ digit_text a.H ++ ")\n"
    ++ toString (NORTH a) ++ " + " ++ toString (EAST a) ++ " + " ++ toString (SOUTH a)
    ++ " + " ++ toString (WEST a) ++ " = " ++ toString (EARTH a) ++ "\n\n"

/-! ## The search engine -/

/-- The loop `for (int d = 0; d <= 9; ++d) body`, threading the state. -/
def for_digits {σ : Type} (body : Nat → σ → σ) (s : σ) : σ :=
  (List.range 10).foldl (fun s d => body d s) s

/-- Lines 19-64 and 87-95: the loop over `T_values` and the eight nested digit
loops with their used-digit bitmasks.  `visit` is the code run at the deepest
level (lines 65-86) once `U` has passed its bitmask test. -/
def search_loops {σ : Type} (visit : Assignment → σ → σ) (T_values : List Nat) (s : σ) : σ :=
  T_values.foldl (fun s T =>
    let H := (10 - (2 * T % 10)) % 10
    if H = T then s else
    let used_digits_TH := (1 <<< T) ||| (1 <<< H)
    for_digits (fun N s =>
      if used_digits_TH &&& (1 <<< N) ≠ 0 then s else
      let used_N := used_digits_TH ||| (1 <<< N)
      for_digits (fun E s =>
        if used_N &&& (1 <<< E) ≠ 0 then s else
        let used_NE := used_N ||| (1 <<< E)
        for_digits (fun S s =>
          if used_NE &&& (1 <<< S) ≠ 0 then s else
          let used_NES := used_NE ||| (1 <<< S)
          for_digits (fun W s =>
            if used_NES &&& (1 <<< W) ≠ 0 then s else
            let used_NESW := used_NES ||| (1 <<< W)
            for_digits (fun O s =>
              if used_NESW &&& (1 <<< O) ≠ 0 then s else
              let used_NESWO := used_NESW ||| (1 <<< O)
              for_digits (fun R s =>
                if used_NESWO &&& (1 <<< R) ≠ 0 then s else
                let used_NESWOR := used_NESWO ||| (1 <<< R)
                for_digits (fun A s =>
                  if used_NESWOR &&& (1 <<< A) ≠ 0 then s else
                  let used_NESWORA := used_NESWOR ||| (1 <<< A)
                  for_digits (fun U s =>
                    if used_NESWORA &&& (1 <<< U) ≠ 0 then s else
                    visit ⟨N, O, R, T, H, E, A, S, W, U⟩ s) s) s) s) s) s) s) s) s) s

/-- Lines 75-85 as one thread runs them with no other thread in between:
increment the counter, read it back for the label, append the entry. -/
def record_solution (a : Assignment) (st : Shared) : Shared :=
  let count := st.total_solutions + 1
  { total_solutions := count, solutions := st.solutions ++ [⟨count, a⟩] }

/-- Lines 65-86: compute the word values, test the equation, record on success. -/
def test_candidate (a : Assignment) (st : Shared) : Shared :=
  if equation_holds a then record_solution a st else st

/-- The function `solve_range` run by a single thread on the shared state. -/
def solve_range (T_values : List Nat) (st : Shared) : Shared :=
  search_loops test_candidate T_values st

/-- The bindings that reach the equation test, in the order they reach it. -/
def tested_candidates (T_values : List Nat) : List Assignment :=
  search_loops (fun a log => log ++ [a]) T_values []

/-- The bindings that pass the equation test, in the order `solve_range` finds them. -/
def found_solutions (T_values : List Nat) : List Assignment :=
  search_loops (fun a log => if equation_holds a then log ++ [a] else log) T_values []

/-! ## The candidate list -/

/-- The bindings that survive the eight bitmask tests for the listed `T` values,
as a list comprehension: the same loops, bounds and bitmask tests as
`search_loops`, each `continue` contributing no binding. -/
def candidates (T_values : List Nat) : List Assignment :=
  T_values.flatMap fun T =>
    let H := (10 - (2 * T % 10)) % 10
    if H = T then [] else
    let used_digits_TH := (1 <<< T) ||| (1 <<< H)
    (List.range 10).flatMap fun N =>
      if used_digits_TH &&& (1 <<< N) ≠ 0 then [] else
      let used_N := used_digits_TH ||| (1 <<< N)
      (List.range 10).flatMap fun E =>
        if used_N &&& (1 <<< E) ≠ 0 then [] else
        let used_NE := used_N ||| (1 <<< E)
        (List.range 10).flatMap fun S =>
          if used_NE &&& (1 <<< S) ≠ 0 then [] else
          let used_NES := used_NE ||| (1 <<< S)
          (List.range 10).flatMap fun W =>
            if used_NES &&& (1 <<< W) ≠ 0 then [] else
            let used_NESW := used_NES ||| (1 <<< W)
            (List.range 10).flatMap fun O =>
              if used_NESW &&& (1 <<< O) ≠ 0 then [] else
              let used_NESWO := used_NESW ||| (1 <<< O)
              (List.range 10).flatMap fun R =>
                if used_NESWO &&& (1 <<< R) ≠ 0 then [] else
                let used_NESWOR := used_NESWO ||| (1 <<< R)
                (List.range 10).flatMap fun A =>
                  if used_NESWOR &&& (1 <<< A) ≠ 0 then [] else
                  let used_NESWORA := used_NESWOR ||| (1 <<< A)
                  (List.range 10).flatMap fun U =>
                    if used_NESWORA &&& (1 <<< U) ≠ 0 then [] else
                    [⟨N, O, R, T, H, E, A, S, W, U⟩]

/-- The ten digits of a binding, in the order N, O, R, T, H, E, A, S, W, U. -/
def letters (a : Assignment) : List Nat :=
  [a.N, a.O, a.R, a.T, a.H, a.E, a.A, a.S, a.W, a.U]

/-- A solution of the puzzle: ten digits in 0..9, pairwise distinct, with
`NORTH + EAST + SOUTH + WEST = EARTH` over the word values. -/
def is_solution (a : Assignment) : Prop :=
  (∀ d ∈ letters a, d ≤ 9) ∧ (letters a).Nodup ∧ NORTH a + EAST a + SOUTH a + WEST a = EARTH a

instance : DecidablePred is_solution := fun a => by
  unfold is_solution
  exact inferInstance

/-- The entries `solve_range` appends to the collection it was handed. -/
def emitted (T_values : List Nat) (st : Shared) : List SolutionRecord :=
  (solve_range T_values st).solutions.drop st.solutions.length

/-! ## Partition of the outer variable -/

/-- Lines 117-122: the loop that collects every `T` in 0..9 with `H != T`. -/
def valid_T_values : List Nat :=
  for_digits (fun T valid =>
    let H := (10 - (2 * T % 10)) % 10
    if H ≠ T then valid ++ [T] else valid) []

/-- Lines 112-114: `hardware_concurrency()` with the fallback to 4. -/
def num_threads (hardware_concurrency : Nat) : Nat :=
  if hardware_concurrency = 0 then 4 else hardware_concurrency

/-- Lines 125-129: `num_threads` empty vectors, then
`T_values_per_thread[i % num_threads].push_back(valid_T_values[i])` for every
index `i`.  The result is `none` when `i % num_threads` divides by zero or an
index falls outside its vector. -/
def T_values_per_thread (num_threads : Nat) (valid_T_values : List Nat) :
    Option (List (List Nat)) :=
  (List.range valid_T_values.length).foldlM (fun per_thread i =>
    if num_threads = 0 then none else
    match valid_T_values[i]?, per_thread[i % num_threads]? with
    | some T, some bucket => some (per_thread.set (i % num_threads) (bucket ++ [T]))
    | _, _ => none) (List.replicate num_threads [])

/-! ## Threads -/

/-- Where a thread stands between two accesses to the shared state. -/
inductive Phase where
  | searching
  | counted (a : Assignment)
  | labelled (r : SolutionRecord)
deriving DecidableEq

/-- A thread running `solve_range`: the solutions it has still to find, in the
order of its search, and its position inside lines 75-85 for the current one. -/
structure Worker where
  remaining : List Assignment
  phase : Phase
deriving DecidableEq

/-- The shared state and the threads of one run. -/
structure Config where
  shared : Shared
  workers : List Worker
deriving DecidableEq

/-- One atomic action of a thread: `total_solutions++` (line 75) on its next
solution, the read of `total_solutions` for the label (line 79), or the
`push_back` under the mutex (lines 84-85).  A thread with nothing left to find
has returned and does nothing. -/
def worker_step (w : Worker) (sh : Shared) : Worker × Shared :=
  match w.phase with
  | Phase.searching =>
    match w.remaining with
    | [] => (w, sh)
    | a :: rest =>
      (⟨rest, Phase.counted a⟩, { sh with total_solutions := sh.total_solutions + 1 })
  | Phase.counted a => (⟨w.remaining, Phase.labelled ⟨sh.total_solutions, a⟩⟩, sh)
  | Phase.labelled r =>
    (⟨w.remaining, Phase.searching⟩, { sh with solutions := sh.solutions ++ [r] })

/-- The solutions a thread has not yet appended: the one it is recording, if
any, and those it has still to find. -/
def pending (w : Worker) : List Assignment :=
  match w.phase with
  | Phase.searching => w.remaining
  | Phase.counted a => a :: w.remaining
  | Phase.labelled r => r.asg :: w.remaining

/-- Thread `i` performs its next atomic action. -/
def step (c : Config) (i : Nat) : Config :=
  match c.workers[i]? with
  | none => c
  | some w =>
    let next := worker_step w c.shared
    ⟨next.2, c.workers.set i next.1⟩

/-- The threads interleave as the schedule says: its `k`-th entry names the
thread that performs the `k`-th atomic action. -/
def run_schedule (c : Config) (schedule : List Nat) : Config :=
  schedule.foldl step c

/-- A thread runs alone until it returns. -/
def finish_worker (w : Worker) (sh : Shared) : Shared :=
  let sh1 : Shared :=
    match w.phase with
    | Phase.searching => sh
    | Phase.counted a => { sh with solutions := sh.solutions ++ [⟨sh.total_solutions, a⟩] }
    | Phase.labelled r => { sh with solutions := sh.solutions ++ [r] }
  w.remaining.foldl (fun sh a => record_solution a sh) sh1

/-- Lines 138-140: the joins.  Whatever the schedule left undone is run to
completion, thread after thread. -/
def join_threads (c : Config) : Shared :=
  c.workers.foldl (fun sh w => finish_worker w sh) c.shared

/-- Every thread has returned. -/
def all_returned (c : Config) : Bool :=
  c.workers.all fun w => decide (w.phase = Phase.searching) && w.remaining.isEmpty

/-- Lines 132-135: one thread per entry of `T_values_per_thread`. -/
def spawn_threads (per_thread : List (List Nat)) : List Worker :=
  per_thread.map fun T_values => ⟨found_solutions T_values, Phase.searching⟩

/-! ## The benchmark harness -/

/-- Lines 125-140 for a given number of threads, from the shared state `st`
and under the given interleaving of the threads.  The result is the shared
state after the joins, or `none` if the partition faults. -/
def run_threads (num_threads : Nat) (schedule : List Nat) (st : Shared) : Option Shared :=
  match T_values_per_thread num_threads valid_T_values with
  | none => none
  | some per_thread => some (join_threads (run_schedule ⟨st, spawn_threads per_thread⟩ schedule))

/-- Lines 111-140 for one iteration, from the shared state `st` set up by
lines 108-109: the thread count is fixed first, then the threads run. -/
def run_once (hardware_concurrency : Nat) (schedule : List Nat) (st : Shared) : Option Shared :=
  run_threads (num_threads hardware_concurrency) schedule st

/-- The global counter, which outlives the iterations, and the two vectors of
`runMultipleTimes`: `solutions_counts`, and `times` by its number of entries
(the entries are clock readings, which the model does not hold). -/
structure Bench where
  total_solutions : Nat
  times_size : Nat
  solutions_counts : List Nat
deriving DecidableEq

/-- The shared state an iteration starts from (lines 108-109): a new empty
`solutions` vector and the counter set to zero, whatever it was before. -/
def reset (_previous : Bench) : Shared :=
  { total_solutions := 0, solutions := [] }

/-- Lines 105-147, the loop of `runMultipleTimes`: `iterations` runs, iteration
`i` under the interleaving `schedule i`, each pushing one entry on `times`
(line 145) and `total_solutions.load()` on `solutions_counts` (line 146). -/
def benchmark_runs (iterations : Nat) (hardware_concurrency : Nat)
    (schedule : Nat → List Nat) : Option Bench :=
  (List.range iterations).foldlM (fun bench i =>
    match run_once hardware_concurrency (schedule i) (reset bench) with
    | none => none
    | some fin =>
      some { total_solutions := fin.total_solutions,
             times_size := bench.times_size + 1,
             solutions_counts := bench.solutions_counts ++ [fin.total_solutions] })
    { total_solutions := 0, times_size := 0, solutions_counts := [] }

/-- The function `runMultipleTimes`: the loop of lines 105-147, then the
statistics of lines 149-152.  Line 150 dereferences
`min_element(times.begin(), times.end())`, which for an empty `times` is the end
iterator: a fault, the result `none`.  With at least one entry the statistics
are computed from the clock readings and printed (lines 154-161), which changes
nothing the model holds, and the function returns. -/
def runMultipleTimes (iterations : Nat) (hardware_concurrency : Nat)
    (schedule : Nat → List Nat) : Option Bench :=
  match benchmark_runs iterations hardware_concurrency schedule with
  | none => none
  | some bench => if bench.times_size = 0 then none else some bench

/-! ## Specification-side notions -/

/-- The base-10 integer formed by reading a digit sequence as digit positions,
most significant first (the derived word value of the glossary). -/
def decimal_value (digits : List Nat) : Nat :=
  digits.foldl (fun value d => 10 * value + d) 0

/-! ## The 32-bit reading of the arithmetic -/

/-- A value brought into the range of a two's-complement 32-bit `int`. -/
def wrap_int32 (x : Int) : Int :=
  (x + 2147483648) % 4294967296 - 2147483648

/-- Line 66 with every product and every sum taken in 32-bit `int`. -/
def NORTH_int32 (a : Assignment) : Int :=
  wrap_int32 (wrap_int32 (wrap_int32 (wrap_int32 (wrap_int32 (a.N * 10000)
    + wrap_int32 (a.O * 1000)) + wrap_int32 (a.R * 100)) + wrap_int32 (a.T * 10)) + a.H)

/-- Line 67 with every product and every sum taken in 32-bit `int`. -/
def EAST_int32 (a : Assignment) : Int :=
  wrap_int32 (wrap_int32 (wrap_int32 (wrap_int32 (a.E * 1000) + wrap_int32 (a.A * 100))
    + wrap_int32 (a.S * 10)) + a.T)

/-- Line 68 with every product and every sum taken in 32-bit `int`. -/
def SOUTH_int32 (a : Assignment) : Int :=
  wrap_int32 (wrap_int32 (wrap_int32 (wrap_int32 (wrap_int32 (a.S * 10000)
    + wrap_int32 (a.O * 1000)) + wrap_int32 (a.U * 100)) + wrap_int32 (a.T * 10)) + a.H)

/-- Line 69 with every product and every sum taken in 32-bit `int`. -/
def WEST_int32 (a : Assignment) : Int :=
  wrap_int32 (wrap_int32 (wrap_int32 (wrap_int32 (a.W * 1000) + wrap_int32 (a.E * 100))
    + wrap_int32 (a.S * 10)) + a.T)

/-- Line 70 with every product and every sum taken in 32-bit `int`. -/
def EARTH_int32 (a : Assignment) : Int :=
  wrap_int32 (wrap_int32 (wrap_int32 (wrap_int32 (wrap_int32 (a.E * 10000)
    + wrap_int32 (a.A * 1000)) + wrap_int32 (a.R * 100)) + wrap_int32 (a.T * 10)) + a.H)

/-- Line 73 in 32-bit `int`: the three sums left to right, then `==`. -/
def equation_holds_int32 (a : Assignment) : Bool :=
  wrap_int32 (wrap_int32 (wrap_int32 (NORTH_int32 a + EAST_int32 a) + SOUTH_int32 a)
    + WEST_int32 a) == EARTH_int32 a

/-- The used-digit bitmasks of lines 24, 29, 34, 39, 44, 49, 54 and 59 on the
way to the binding `a`: `used_digits_TH`, `used_N`, ..., `used_NESWORA`. -/
def used_masks (a : Assignment) : List Nat :=
  let used_digits_TH := (1 <<< a.T) ||| (1 <<< a.H)
  let used_N := used_digits_TH ||| (1 <<< a.N)
  let used_NE := used_N ||| (1 <<< a.E)
  let used_NES := used_NE ||| (1 <<< a.S)
  let used_NESW := used_NES ||| (1 <<< a.W)
  let used_NESWO := used_NESW ||| (1 <<< a.O)
  let used_NESWOR := used_NESWO ||| (1 <<< a.R)
  let used_NESWORA := used_NESWOR ||| (1 <<< a.A)
  [used_digits_TH, used_N, used_NE, used_NES, used_NESW, used_NESWO, used_NESWOR, used_NESWORA]

/-! ## The order of the search -/

/-- The free letters of a binding in the nesting order of the loops, N, E, S, W,
O, R, A, U: the key by which the search visits its candidates. -/
def search_key (a : Assignment) : List Nat :=
  [a.N, a.E, a.S, a.W, a.O, a.R, a.A, a.U]

/-! ## The solutions -/

/-- The 24 solutions of the puzzle, each as N, O, R, T, H, E, A, S, W, U, in the
order in which the sequential search over the valid `T` values finds them. -/
def solution_table : List Assignment :=
  [⟨2, 5, 6, 1, 8, 7, 9, 4, 0, 3⟩,
   ⟨1, 3, 9, 5, 0, 4, 8, 2, 6, 7⟩,
   ⟨1, 3, 8, 5, 0, 4, 9, 2, 7, 6⟩,
   ⟨3, 9, 6, 5, 0, 7, 8, 2, 1, 4⟩,
   ⟨3, 9, 1, 5, 0, 8, 4, 2, 6, 7⟩,
   ⟨4, 1, 6, 5, 0, 7, 9, 2, 8, 3⟩,
   ⟨4, 8, 1, 5, 0, 9, 3, 2, 6, 7⟩,
   ⟨6, 1, 8, 5, 0, 9, 7, 2, 4, 3⟩,
   ⟨2, 0, 5, 6, 8, 3, 9, 1, 4, 7⟩,
   ⟨3, 9, 5, 6, 8, 7, 0, 1, 4, 2⟩,
   ⟨5, 2, 4, 6, 8, 7, 3, 1, 0, 9⟩,
   ⟨5, 4, 0, 6, 8, 7, 9, 1, 2, 3⟩,
   ⟨5, 0, 2, 6, 8, 7, 3, 1, 4, 9⟩,
   ⟨0, 2, 7, 8, 4, 6, 3, 5, 1, 9⟩,
   ⟨0, 2, 1, 8, 4, 6, 9, 5, 7, 3⟩,
   ⟨0, 6, 3, 8, 4, 7, 2, 5, 1, 9⟩,
   ⟨1, 0, 6, 8, 4, 7, 2, 5, 3, 9⟩,
   ⟨2, 9, 6, 8, 4, 5, 1, 0, 7, 3⟩,
   ⟨2, 7, 0, 8, 4, 9, 6, 5, 1, 3⟩,
   ⟨3, 9, 5, 8, 4, 6, 2, 0, 7, 1⟩,
   ⟨3, 0, 6, 8, 4, 9, 2, 5, 1, 7⟩,
   ⟨3, 0, 1, 8, 4, 9, 7, 5, 6, 2⟩,
   ⟨5, 6, 1, 8, 4, 7, 3, 0, 2, 9⟩,
   ⟨6, 1, 5, 8, 4, 7, 3, 0, 2, 9⟩]

/-- The binding that the five columns of the sum force once `T`, `S`, `E`, `A`
and `O` are chosen: `H` from the units column, `U` from the hundreds column, `W`
from the thousands column, `N` from the ten-thousands column (`c1`..`c4` are the
carries out of the columns to the right), and `R`, which cancels in the sum, as
the one digit left over. -/
def reconstruct (T S E A O : Nat) : Assignment :=
  let H := derived_H T
  let c1 := (2 * T + H) / 10
  let c2 := (T + 2 * S + c1) / 10
  let U := (30 - (A + E + c2)) % 10
  let c3 := (A + U + E + c2) / 10
  let W := (A + 40 - (2 * O + E + c3)) % 10
  let c4 := (2 * O + E + W + c3) / 10
  let N := E - S - c4
  let R := 45 - (N + O + T + H + E + A + S + W + U)
  ⟨N, O, R, T, H, E, A, S, W, U⟩

/-! ## Theorems -/

theorem foldl_flatMap_trace {α β σ : Type} (l : List α) (g : α → σ → σ) (tr : α → List β)
    (f : β → σ → σ) (h : ∀ x s, g x s = (tr x).foldl (fun s b => f b s) s) (s : σ) :
    l.foldl (fun s x => g x s) s = (l.flatMap tr).foldl (fun s b => f b s) s := by
  induction l generalizing s with
  | nil => rfl
  | cons x xs ih =>
    simp only [List.foldl_cons, List.flatMap_cons, List.foldl_append]
    rw [h, ih]

theorem search_loops_eq_foldl {σ : Type} (visit : Assignment → σ → σ) (T_values : List Nat)
    (s : σ) :
    search_loops visit T_values s = (candidates T_values).foldl (fun s a => visit a s) s := by
  unfold search_loops candidates for_digits
  apply foldl_flatMap_trace
  intro T s
  dsimp only
  by_cases hT : (10 - 2 * T % 10) % 10 = T
  · rw [if_pos hT, if_pos hT]; rfl
  rw [if_neg hT, if_neg hT]
  apply foldl_flatMap_trace
  intro N s
  split
  · rfl
  apply foldl_flatMap_trace
  intro E s
  split
  · rfl
  apply foldl_flatMap_trace
  intro S s
  split
  · rfl
  apply foldl_flatMap_trace
  intro W s
  split
  · rfl
  apply foldl_flatMap_trace
  intro O s
  split
  · rfl
  apply foldl_flatMap_trace
  intro R s
  split
  · rfl
  apply foldl_flatMap_trace
  intro A s
  split
  · rfl
  apply foldl_flatMap_trace
  intro U s
  split
  · rfl
  rfl

theorem mask_test (m d : Nat) : (m &&& (1 <<< d) ≠ 0) ↔ m.testBit d = true := by
  rw [Nat.one_shiftLeft, Nat.and_two_pow]
  cases m.testBit d <;> simp

theorem mask_add (m e d : Nat) : (m ||| (1 <<< e)).testBit d = (m.testBit d || decide (e = d)) := by
  rw [Nat.testBit_or, Nat.one_shiftLeft, Nat.testBit_two_pow]

theorem mask_one (e d : Nat) : (1 <<< e).testBit d = decide (e = d) := by
  rw [Nat.one_shiftLeft, Nat.testBit_two_pow]

theorem mem_ite_nil {α : Type} (c : Prop) [Decidable c] (b : α) (l : List α) :
    (b ∈ if c then [] else l) ↔ ¬ c ∧ b ∈ l := by
  split <;> simp [*]

theorem mem_candidates (T_values : List Nat) (a : Assignment) :
    a ∈ candidates T_values ↔
      a.T ∈ T_values ∧ a.H = derived_H a.T ∧ (letters a).Nodup ∧
        a.N < 10 ∧ a.E < 10 ∧ a.S < 10 ∧ a.W < 10 ∧ a.O < 10 ∧ a.R < 10 ∧ a.A < 10 ∧ a.U < 10 := by
  unfold candidates
  simp only [List.mem_flatMap, List.mem_range, mask_test, mask_add, mask_one, mem_ite_nil,
    List.mem_singleton, Bool.or_eq_true, decide_eq_true_eq, not_or]
  constructor
  · rintro ⟨T, hT, hH, N, hN, hN2, E, hE, hE2, S, hS, hS2, W, hW, hW2, O, hO, hO2, R, hR, hR2,
      A, hA, hA2, U, hU, hU2, rfl⟩
    refine ⟨hT, rfl, ?_, hN, hE, hS, hW, hO, hR, hA, hU⟩
    simp only [letters, List.nodup_cons, List.mem_cons, List.mem_singleton, not_or,
      List.not_mem_nil, not_false_eq_true, List.nodup_nil, and_true]
    obtain ⟨h1, h2⟩ := hN2
    obtain ⟨⟨h3, h4⟩, h5⟩ := hE2
    obtain ⟨⟨⟨h6, h7⟩, h8⟩, h9⟩ := hS2
    obtain ⟨⟨⟨⟨h10, h11⟩, h12⟩, h13⟩, h14⟩ := hW2
    obtain ⟨⟨⟨⟨⟨h15, h16⟩, h17⟩, h18⟩, h19⟩, h20⟩ := hO2
    obtain ⟨⟨⟨⟨⟨⟨h21, h22⟩, h23⟩, h24⟩, h25⟩, h26⟩, h27⟩ := hR2
    obtain ⟨⟨⟨⟨⟨⟨⟨h28, h29⟩, h30⟩, h31⟩, h32⟩, h33⟩, h34⟩, h35⟩ := hA2
    obtain ⟨⟨⟨⟨⟨⟨⟨⟨h36, h37⟩, h38⟩, h39⟩, h40⟩, h41⟩, h42⟩, h43⟩, h44⟩ := hU2
    refine ⟨⟨?_, ?_, ?_, ?_, ?_, ?_, ?_, ?_, ?_⟩, ⟨?_, ?_, ?_, ?_, ?_, ?_, ?_, ?_⟩,
      ⟨?_, ?_, ?_, ?_, ?_, ?_, ?_⟩, ⟨?_, ?_, ?_, ?_, ?_, ?_⟩, ⟨?_, ?_, ?_, ?_, ?_⟩,
      ⟨?_, ?_, ?_, ?_⟩, ⟨?_, ?_, ?_⟩, ⟨?_, ?_⟩, ?_⟩ <;>
      first | assumption | (apply Ne.symm; assumption)
  · obtain ⟨N, O, R, T, H, E, A, S, W, U⟩ := a
    simp only [letters, List.nodup_cons, List.mem_cons, List.mem_singleton, not_or,
      List.not_mem_nil, not_false_eq_true, List.nodup_nil, and_true, derived_H]
    rintro ⟨hT, rfl, hnd, hN, hE, hS, hW, hO, hR, hA, hU⟩
    simp only [and_assoc] at hnd
    obtain ⟨k1, k2, k3, k4, k5, k6, k7, k8, k9, k10, k11, k12, k13, k14, k15, k16, k17, k18, k19, k20, k21, k22, k23, k24, k25, k26, k27, k28, k29, k30, k31, k32, k33, k34, k35, k36, k37, k38, k39, k40, k41, k42, k43, k44, k45⟩ := hnd
    refine ⟨T, hT, ?_, N, hN, ⟨?_, ?_⟩, E, hE, ⟨⟨?_, ?_⟩, ?_⟩, S, hS, ⟨⟨⟨?_, ?_⟩, ?_⟩, ?_⟩,
      W, hW, ⟨⟨⟨⟨?_, ?_⟩, ?_⟩, ?_⟩, ?_⟩, O, hO, ⟨⟨⟨⟨⟨?_, ?_⟩, ?_⟩, ?_⟩, ?_⟩, ?_⟩,
      R, hR, ⟨⟨⟨⟨⟨⟨?_, ?_⟩, ?_⟩, ?_⟩, ?_⟩, ?_⟩, ?_⟩,
      A, hA, ⟨⟨⟨⟨⟨⟨⟨?_, ?_⟩, ?_⟩, ?_⟩, ?_⟩, ?_⟩, ?_⟩, ?_⟩,
      U, hU, ⟨⟨⟨⟨⟨⟨⟨⟨?_, ?_⟩, ?_⟩, ?_⟩, ?_⟩, ?_⟩, ?_⟩, ?_⟩, ?_⟩, rfl⟩ <;>
      first | assumption | (apply Ne.symm; assumption)

theorem nodup_flatMap_of_key {α β : Type} (l : List α) (f : α → List β) (key : β → α)
    (hl : l.Nodup) (hf : ∀ x ∈ l, (f x).Nodup) (hk : ∀ x ∈ l, ∀ b ∈ f x, key b = x) :
    (l.flatMap f).Nodup := by
  rw [List.nodup_flatMap]
  refine ⟨hf, ?_⟩
  refine (List.Pairwise.and_mem.mp hl).imp ?_
  rintro x y ⟨hx, hy, hxy⟩ b hbx hby
  exact hxy ((hk x hx b hbx).symm.trans (hk y hy b hby))

theorem nodup_ite_nil {α : Type} (c : Prop) [Decidable c] (l : List α) (h : ¬ c → l.Nodup) :
    (if c then [] else l).Nodup := by
  split
  · exact List.nodup_nil
  · exact h ‹_›

theorem nodup_candidates (T_values : List Nat) (hT : T_values.Nodup) :
    (candidates T_values).Nodup := by
  unfold candidates
  refine nodup_flatMap_of_key _ _ (fun b => b.T) hT ?_ ?_
  rotate_left
  · intro T _ b hb
    simp only [mem_ite_nil, List.mem_flatMap, List.mem_singleton] at hb
    obtain ⟨-, _, -, -, _, -, -, _, -, -, _, -, -, _, -, -, _, -, -, _, -, -, _, -, -, rfl⟩ := hb
    rfl
  intro T _
  refine nodup_ite_nil _ _ (fun _ => ?_)
  refine nodup_flatMap_of_key _ _ (fun b => b.N) (List.nodup_range 10) ?_ ?_
  rotate_left
  · intro N _ b hb
    simp only [mem_ite_nil, List.mem_flatMap, List.mem_singleton] at hb
    obtain ⟨-, _, -, -, _, -, -, _, -, -, _, -, -, _, -, -, _, -, -, _, -, -, rfl⟩ := hb
    rfl
  intro N _
  refine nodup_ite_nil _ _ (fun _ => ?_)
  refine nodup_flatMap_of_key _ _ (fun b => b.E) (List.nodup_range 10) ?_ ?_
  rotate_left
  · intro E _ b hb
    simp only [mem_ite_nil, List.mem_flatMap, List.mem_singleton] at hb
    obtain ⟨-, _, -, -, _, -, -, _, -, -, _, -, -, _, -, -, _, -, -, rfl⟩ := hb
    rfl
  intro E _
  refine nodup_ite_nil _ _ (fun _ => ?_)
  refine nodup_flatMap_of_key _ _ (fun b => b.S) (List.nodup_range 10) ?_ ?_
  rotate_left
  · intro S _ b hb
    simp only [mem_ite_nil, List.mem_flatMap, List.mem_singleton] at hb
    obtain ⟨-, _, -, -, _, -, -, _, -, -, _, -, -, _, -, -, rfl⟩ := hb
    rfl
  intro S _
  refine nodup_ite_nil _ _ (fun _ => ?_)
  refine nodup_flatMap_of_key _ _ (fun b => b.W) (List.nodup_range 10) ?_ ?_
  rotate_left
  · intro W _ b hb
    simp only [mem_ite_nil, List.mem_flatMap, List.mem_singleton] at hb
    obtain ⟨-, _, -, -, _, -, -, _, -, -, _, -, -, rfl⟩ := hb
    rfl
  intro W _
  refine nodup_ite_nil _ _ (fun _ => ?_)
  refine nodup_flatMap_of_key _ _ (fun b => b.O) (List.nodup_range 10) ?_ ?_
  rotate_left
  · intro O _ b hb
    simp only [mem_ite_nil, List.mem_flatMap, List.mem_singleton] at hb
    obtain ⟨-, _, -, -, _, -, -, _, -, -, rfl⟩ := hb
    rfl
  intro O _
  refine nodup_ite_nil _ _ (fun _ => ?_)
  refine nodup_flatMap_of_key _ _ (fun b => b.R) (List.nodup_range 10) ?_ ?_
  rotate_left
  · intro R _ b hb
    simp only [mem_ite_nil, List.mem_flatMap, List.mem_singleton] at hb
    obtain ⟨-, _, -, -, _, -, -, rfl⟩ := hb
    rfl
  intro R _
  refine nodup_ite_nil _ _ (fun _ => ?_)
  refine nodup_flatMap_of_key _ _ (fun b => b.A) (List.nodup_range 10) ?_ ?_
  rotate_left
  · intro A _ b hb
    simp only [mem_ite_nil, List.mem_flatMap, List.mem_singleton] at hb
    obtain ⟨-, _, -, -, rfl⟩ := hb
    rfl
  intro A _
  refine nodup_ite_nil _ _ (fun _ => ?_)
  refine nodup_flatMap_of_key _ _ (fun b => b.U) (List.nodup_range 10) ?_ ?_
  rotate_left
  · intro U _ b hb
    simp only [mem_ite_nil, List.mem_flatMap, List.mem_singleton] at hb
    obtain ⟨-, rfl⟩ := hb
    rfl
  intro U _
  refine nodup_ite_nil _ _ (fun _ => ?_)
  exact List.nodup_singleton _

/-! ### What `solve_range` tests and what it records -/

theorem foldl_snoc_log {α : Type} (l log : List α) :
    l.foldl (fun log a => log ++ [a]) log = log ++ l := by
  induction l generalizing log with
  | nil => simp
  | cons x xs ih => simp [ih]

theorem foldl_snoc_filter {α : Type} (p : α → Bool) (l log : List α) :
    l.foldl (fun log a => if p a then log ++ [a] else log) log = log ++ l.filter p := by
  induction l generalizing log with
  | nil => simp
  | cons x xs ih =>
    cases hp : p x <;> simp [ih, hp, List.filter_cons]

theorem tested_candidates_eq (T_values : List Nat) :
    tested_candidates T_values = candidates T_values := by
  unfold tested_candidates
  rw [search_loops_eq_foldl, foldl_snoc_log, List.nil_append]

theorem found_solutions_eq (T_values : List Nat) :
    found_solutions T_values = (candidates T_values).filter equation_holds := by
  unfold found_solutions
  rw [search_loops_eq_foldl, foldl_snoc_filter, List.nil_append]

theorem foldl_test_candidate (l : List Assignment) (st : Shared) :
    l.foldl (fun st a => test_candidate a st) st
      = (l.filter equation_holds).foldl (fun st a => record_solution a st) st := by
  induction l generalizing st with
  | nil => rfl
  | cons x xs ih =>
    rw [List.foldl_cons, ih, List.filter_cons]
    cases hp : equation_holds x <;> simp [hp, test_candidate]

/-- A thread that runs `solve_range` alone records its solutions one after the
other, in the order of the search. -/
theorem solve_range_eq_record (T_values : List Nat) (st : Shared) :
    solve_range T_values st
      = (found_solutions T_values).foldl (fun st a => record_solution a st) st := by
  unfold solve_range
  rw [search_loops_eq_foldl, foldl_test_candidate, found_solutions_eq]

theorem record_all_total (l : List Assignment) (st : Shared) :
    (l.foldl (fun st a => record_solution a st) st).total_solutions
      = st.total_solutions + l.length := by
  induction l generalizing st with
  | nil => rfl
  | cons x xs ih =>
    rw [List.foldl_cons, ih]
    simp only [record_solution, List.length_cons]
    omega

theorem record_all_solutions (l : List Assignment) (st : Shared) :
    (l.foldl (fun st a => record_solution a st) st).solutions
      = st.solutions ++ (List.range l.length).zipWith
          (fun k a => ⟨st.total_solutions + (k + 1), a⟩) l := by
  induction l generalizing st with
  | nil => simp
  | cons x xs ih =>
    rw [List.foldl_cons, ih]
    simp only [record_solution, List.length_cons, List.append_assoc,
      List.singleton_append, List.range_succ_eq_map, List.zipWith_cons_cons,
      List.zipWith_map_left]
    congr 2
    apply congrArg (fun f => List.zipWith f (List.range xs.length) xs)
    funext k a
    simp only [Function.comp, SolutionRecord.mk.injEq, and_true]
    omega

theorem emitted_eq (T_values : List Nat) (st : Shared) :
    emitted T_values st = (List.range (found_solutions T_values).length).zipWith
      (fun k a => ⟨st.total_solutions + (k + 1), a⟩) (found_solutions T_values) := by
  unfold emitted
  rw [solve_range_eq_record, record_all_solutions, List.drop_left]

theorem solutions_eq_append_emitted (T_values : List Nat) (st : Shared) :
    (solve_range T_values st).solutions = st.solutions ++ emitted T_values st := by
  rw [emitted_eq, solve_range_eq_record, record_all_solutions]

theorem zipWith_index_asg (n : Nat) (l : List Assignment) :
    ∀ (m : Nat), m = l.length →
    ((List.range m).zipWith (fun k a => (⟨n + (k + 1), a⟩ : SolutionRecord)) l).map
      SolutionRecord.asg = l := by
  intro m hm
  rw [List.map_zipWith]
  apply List.ext_getElem
  · simp [hm]
  · intro i h1 h2
    simp

theorem emitted_asg (T_values : List Nat) (st : Shared) :
    (emitted T_values st).map SolutionRecord.asg = found_solutions T_values := by
  rw [emitted_eq]
  exact zipWith_index_asg _ _ _ rfl

theorem equation_holds_iff (a : Assignment) :
    equation_holds a = true ↔ NORTH a + EAST a + SOUTH a + WEST a = EARTH a := by
  simp [equation_holds]

/-- The units column of the sum forces `H` from `T`. -/
theorem units_column (a : Assignment) (hH : a.H ≤ 9)
    (h : NORTH a + EAST a + SOUTH a + WEST a = EARTH a) : a.H = derived_H a.T := by
  unfold NORTH EAST SOUTH WEST EARTH at h
  unfold derived_H
  omega

theorem mem_found_solutions (T_values : List Nat) (hT : ∀ T ∈ T_values, T ≤ 9)
    (a : Assignment) :
    a ∈ found_solutions T_values ↔ a.T ∈ T_values ∧ is_solution a := by
  rw [found_solutions_eq, List.mem_filter, mem_candidates, equation_holds_iff]
  unfold is_solution
  constructor
  · rintro ⟨⟨hmem, hH, hnd, hN, hE, hS, hW, hO, hR, hA, hU⟩, heq⟩
    refine ⟨hmem, ?_, hnd, heq⟩
    have hT9 := hT _ hmem
    have hH9 : a.H ≤ 9 := by rw [hH]; unfold derived_H; omega
    intro d hd
    simp only [letters, List.mem_cons, List.mem_singleton, List.not_mem_nil, or_false] at hd
    omega
  · rintro ⟨hmem, hd, hnd, heq⟩
    have hb : ∀ d ∈ letters a, d < 10 := fun d h => Nat.lt_succ_of_le (hd d h)
    simp only [letters, List.mem_cons, List.mem_singleton, List.not_mem_nil, or_false,
      forall_eq_or_imp, forall_eq] at hb
    obtain ⟨hN, hO, hR, hT1, hH, hE, hA, hS, hW, hU⟩ := hb
    exact ⟨⟨hmem, units_column a (by omega) heq, hnd, hN, hE, hS, hW, hO, hR, hA, hU⟩, heq⟩

/-! ### The round-robin partition -/

theorem valid_T_values_eq : valid_T_values = [1, 2, 3, 4, 5, 6, 7, 8, 9] := by
  decide

theorem per_thread_prefix (n : Nat) (vals : List Nat) (hn : 0 < n) (k : Nat)
    (hk : k ≤ vals.length) :
    (List.range k).foldlM (fun per_thread i =>
      if n = 0 then none else
      match vals[i]?, per_thread[i % n]? with
      | some T, some bucket => some (per_thread.set (i % n) (bucket ++ [T]))
      | _, _ => none) (List.replicate n [])
    = some ((List.range n).map fun j =>
        ((List.range k).filter (fun i => i % n = j)).filterMap (fun i => vals[i]?)) := by
  induction k with
  | zero =>
    simp only [List.range_zero, List.foldlM_nil, List.filter_nil, List.filterMap_nil]
    apply congrArg
    apply List.ext_getElem <;> simp
  | succ k ih =>
    have hk1 : k < vals.length := hk
    have hmod : k % n < n := Nat.mod_lt _ hn
    rw [List.range_succ, List.foldlM_append, ih (Nat.le_of_lt hk1)]
    simp only [Option.bind_eq_bind, Option.some_bind, List.foldlM_cons, List.foldlM_nil,
      if_neg (Nat.ne_of_gt hn), List.getElem?_eq_getElem hk1]
    rw [List.getElem?_eq_getElem (by simpa using hmod)]
    simp only [Option.bind_eq_bind, Option.some_bind, Option.pure_def]
    apply congrArg
    apply List.ext_getElem
    · simp
    · intro i h1 h2
      simp only [List.length_map, List.length_range] at h2
      simp only [List.getElem_set, List.getElem_map, List.getElem_range, List.filter_append,
        List.filterMap_append, List.filter_cons, List.filter_nil]
      by_cases hi : k % n = i
      · simp [hi, hk1]
      · simp [hi]

/-- Thread `j` receives the values at the positions `i` with `i % n = j`, in
increasing order of position. -/
theorem T_values_per_thread_eq (n : Nat) (vals : List Nat) (hn : 0 < n) :
    T_values_per_thread n vals
      = some ((List.range n).map fun j =>
          ((List.range vals.length).filter (fun i => i % n = j)).filterMap
            (fun i => vals[i]?)) :=
  per_thread_prefix n vals hn vals.length (Nat.le_refl _)

theorem filterMap_range_getElem {α : Type} (vals : List α) :
    (List.range vals.length).filterMap (fun i => vals[i]?) = vals := by
  induction vals with
  | nil => rfl
  | cons x xs ih =>
    rw [List.length_cons, List.range_succ_eq_map, List.filterMap_cons]
    simp only [List.getElem?_cons_zero, List.filterMap_map]
    congr 1
    have hf : ((fun i => (x :: xs)[i]?) ∘ Nat.succ) = fun i => xs[i]? := by
      funext i
      simp
    rw [hf, ih]

theorem round_robin_positions (n m : Nat) (hn : 0 < n) :
    ((List.range n).flatMap fun j => (List.range m).filter (fun i => i % n = j)).Perm
      (List.range m) := by
  rw [List.perm_ext_iff_of_nodup]
  · intro i
    simp only [List.mem_flatMap, List.mem_range, List.mem_filter, decide_eq_true_eq]
    constructor
    · rintro ⟨j, -, hi, -⟩
      exact hi
    · intro hi
      exact ⟨i % n, Nat.mod_lt _ hn, hi, rfl⟩
  · refine nodup_flatMap_of_key _ _ (fun i => i % n) (List.nodup_range n) ?_ ?_
    · intro j _
      exact (List.nodup_range m).filter _
    · intro j _ i hi
      simpa using (List.mem_filter.mp hi).2
  · exact List.nodup_range m

theorem round_robin_perm (n : Nat) (vals : List Nat) (hn : 0 < n) :
    ((List.range n).map fun j =>
        ((List.range vals.length).filter (fun i => i % n = j)).filterMap
          (fun i => vals[i]?)).flatten.Perm vals := by
  have h := (round_robin_positions n vals.length hn).filterMap (fun i => vals[i]?)
  rw [filterMap_range_getElem, List.filterMap_flatMap] at h
  rw [← List.flatMap_def]
  exact h

theorem one_bucket {α : Type} [DecidableEq α] (L : List (List α)) (hL : L.flatten.Nodup)
    (x : α) (hx : x ∈ L.flatten) : (L.filter fun b => decide (x ∈ b)).length = 1 := by
  induction L with
  | nil => simp at hx
  | cons b rest ih =>
    rw [List.flatten_cons, List.nodup_append] at hL
    obtain ⟨-, hrest, hdisj⟩ := hL
    rw [List.flatten_cons, List.mem_append] at hx
    by_cases hb : x ∈ b
    · have hnone : rest.filter (fun b => decide (x ∈ b)) = [] := by
        rw [List.filter_eq_nil_iff]
        intro c hc hxc
        exact hdisj hb (List.mem_flatten.mpr ⟨c, hc, by simpa using hxc⟩)
      simp [List.filter_cons, hb, hnone]
    · have hr : x ∈ rest.flatten := hx.resolve_left hb
      simp [List.filter_cons, hb, ih hrest hr]

theorem pairwise_disjoint_of_nodup_flatten {α : Type} (L : List (List α))
    (hL : L.flatten.Nodup) : L.Pairwise List.Disjoint :=
  (List.nodup_flatten.mp hL).2

/-! ### Interleavings of the threads -/

theorem record_all_asgs (l : List Assignment) (st : Shared) :
    (l.foldl (fun st a => record_solution a st) st).solutions.map SolutionRecord.asg
      = st.solutions.map SolutionRecord.asg ++ l := by
  rw [record_all_solutions, List.map_append, zipWith_index_asg _ _ _ rfl]

theorem finish_worker_total (w : Worker) (sh : Shared) :
    (finish_worker w sh).total_solutions = sh.total_solutions + w.remaining.length := by
  unfold finish_worker
  rw [record_all_total]
  cases w.phase <;> rfl

theorem finish_worker_asgs (w : Worker) (sh : Shared) :
    (finish_worker w sh).solutions.map SolutionRecord.asg
      = sh.solutions.map SolutionRecord.asg ++ pending w := by
  unfold finish_worker pending
  rw [record_all_asgs]
  cases w.phase <;> simp

theorem finish_all_total (ws : List Worker) (sh : Shared) :
    (ws.foldl (fun sh w => finish_worker w sh) sh).total_solutions
      = sh.total_solutions + (ws.map fun w => w.remaining.length).sum := by
  induction ws generalizing sh with
  | nil => simp
  | cons w ws ih =>
    rw [List.foldl_cons, ih, finish_worker_total, List.map_cons, List.sum_cons]
    omega

theorem finish_all_asgs (ws : List Worker) (sh : Shared) :
    (ws.foldl (fun sh w => finish_worker w sh) sh).solutions.map SolutionRecord.asg
      = sh.solutions.map SolutionRecord.asg ++ ws.flatMap pending := by
  induction ws generalizing sh with
  | nil => simp
  | cons w ws ih =>
    rw [List.foldl_cons, ih, finish_worker_asgs, List.flatMap_cons, List.append_assoc]

/-- The number of increments of `total_solutions` a configuration ends with. -/
theorem join_threads_total (c : Config) :
    (join_threads c).total_solutions
      = c.shared.total_solutions + (c.workers.map fun w => w.remaining.length).sum :=
  finish_all_total _ _

theorem join_threads_asgs (c : Config) :
    (join_threads c).solutions.map SolutionRecord.asg
      = c.shared.solutions.map SolutionRecord.asg ++ c.workers.flatMap pending :=
  finish_all_asgs _ _

/-- Once every thread has returned, the joins change nothing: a schedule that
runs the threads to completion already ends in the state the run returns. -/
theorem join_threads_of_all_returned (c : Config) (h : all_returned c = true) :
    join_threads c = c.shared := by
  obtain ⟨sh, ws⟩ := c
  unfold join_threads
  unfold all_returned at h
  simp only at h ⊢
  induction ws generalizing sh with
  | nil => rfl
  | cons w ws ih =>
    rw [List.all_cons, Bool.and_eq_true, Bool.and_eq_true, decide_eq_true_eq,
      List.isEmpty_iff] at h
    obtain ⟨⟨hphase, hrem⟩, hrest⟩ := h
    rw [List.foldl_cons]
    have hw : finish_worker w sh = sh := by
      unfold finish_worker
      rw [hphase, hrem]
      rfl
    rw [hw]
    exact ih sh hrest

theorem sum_set {α : Type} (g : α → Nat) (l : List α) (i : Nat) (w w2 : α) (k : Nat)
    (h : l[i]? = some w) (hg : g w = g w2 + k) :
    ((l.set i w2).map g).sum + k = (l.map g).sum := by
  induction l generalizing i with
  | nil => simp at h
  | cons x xs ih =>
    cases i with
    | zero =>
      simp only [List.getElem?_cons_zero, Option.some.injEq] at h
      subst h
      simp only [List.set_cons_zero, List.map_cons, List.sum_cons, hg]
      omega
    | succ i =>
      simp only [List.getElem?_cons_succ] at h
      simp only [List.set_cons_succ, List.map_cons, List.sum_cons]
      have := ih i h
      omega

theorem flatMap_set_perm {α β : Type} (f : α → List β) (l : List α) (i : Nat) (w w2 : α)
    (extra : List β) (h : l[i]? = some w) (hf : f w = extra ++ f w2) :
    (extra ++ (l.set i w2).flatMap f).Perm (l.flatMap f) := by
  induction l generalizing i with
  | nil => simp at h
  | cons x xs ih =>
    cases i with
    | zero =>
      simp only [List.getElem?_cons_zero, Option.some.injEq] at h
      subst h
      simp only [List.set_cons_zero, List.flatMap_cons, hf, List.append_assoc]
      exact List.Perm.refl _
    | succ i =>
      simp only [List.getElem?_cons_succ] at h
      simp only [List.set_cons_succ, List.flatMap_cons]
      have h1 := ih i h
      have h2 : (extra ++ (f x ++ (xs.set i w2).flatMap f)).Perm
          (f x ++ (extra ++ (xs.set i w2).flatMap f)) := by
        rw [← List.append_assoc, ← List.append_assoc]
        exact List.Perm.append_right _ List.perm_append_comm
      exact h2.trans (List.Perm.append_left _ h1)

theorem step_total (c : Config) (i : Nat) :
    (step c i).shared.total_solutions + ((step c i).workers.map fun w => w.remaining.length).sum
      = c.shared.total_solutions + (c.workers.map fun w => w.remaining.length).sum := by
  unfold step
  cases h : c.workers[i]? with
  | none => rfl
  | some w =>
    obtain ⟨rem, ph⟩ := w
    cases ph with
    | searching =>
      cases rem with
      | nil =>
        have := sum_set (fun w : Worker => w.remaining.length) c.workers i _
          ⟨[], Phase.searching⟩ 0 h rfl
        simp only [worker_step]
        omega
      | cons a rest =>
        have := sum_set (fun w : Worker => w.remaining.length) c.workers i _
          ⟨rest, Phase.counted a⟩ 1 h rfl
        simp only [worker_step]
        omega
    | counted a =>
      have := sum_set (fun w : Worker => w.remaining.length) c.workers i _
        ⟨rem, Phase.labelled ⟨c.shared.total_solutions, a⟩⟩ 0 h rfl
      simp only [worker_step]
      omega
    | labelled r =>
      have := sum_set (fun w : Worker => w.remaining.length) c.workers i _
        ⟨rem, Phase.searching⟩ 0 h rfl
      simp only [worker_step]
      omega

theorem step_asgs (c : Config) (i : Nat) :
    ((step c i).shared.solutions.map SolutionRecord.asg ++ (step c i).workers.flatMap pending).Perm
      (c.shared.solutions.map SolutionRecord.asg ++ c.workers.flatMap pending) := by
  unfold step
  cases h : c.workers[i]? with
  | none => exact List.Perm.refl _
  | some w =>
    obtain ⟨rem, ph⟩ := w
    cases ph with
    | searching =>
      cases rem with
      | nil =>
        have := flatMap_set_perm pending c.workers i _ ⟨[], Phase.searching⟩ [] h rfl
        simp only [worker_step]
        exact List.Perm.append_left _ this
      | cons a rest =>
        have := flatMap_set_perm pending c.workers i _ ⟨rest, Phase.counted a⟩ [] h rfl
        simp only [worker_step]
        exact List.Perm.append_left _ this
    | counted a =>
      have := flatMap_set_perm pending c.workers i _
        ⟨rem, Phase.labelled ⟨c.shared.total_solutions, a⟩⟩ [] h rfl
      simp only [worker_step]
      exact List.Perm.append_left _ this
    | labelled r =>
      have := flatMap_set_perm pending c.workers i _ ⟨rem, Phase.searching⟩ [r.asg] h rfl
      simp only [worker_step, List.map_append, List.map_cons, List.map_nil, List.append_assoc]
      exact List.Perm.append_left _ this

theorem run_schedule_total (c : Config) (schedule : List Nat) :
    (run_schedule c schedule).shared.total_solutions
        + ((run_schedule c schedule).workers.map fun w => w.remaining.length).sum
      = c.shared.total_solutions + (c.workers.map fun w => w.remaining.length).sum := by
  unfold run_schedule
  induction schedule generalizing c with
  | nil => rfl
  | cons i rest ih => rw [List.foldl_cons, ih, step_total]

theorem run_schedule_asgs (c : Config) (schedule : List Nat) :
    ((run_schedule c schedule).shared.solutions.map SolutionRecord.asg
        ++ (run_schedule c schedule).workers.flatMap pending).Perm
      (c.shared.solutions.map SolutionRecord.asg ++ c.workers.flatMap pending) := by
  unfold run_schedule
  induction schedule generalizing c with
  | nil => exact List.Perm.refl _
  | cons i rest ih =>
    rw [List.foldl_cons]
    exact (ih (step c i)).trans (step_asgs c i)

theorem spawn_threads_pending (per_thread : List (List Nat)) :
    (spawn_threads per_thread).flatMap pending = per_thread.flatMap found_solutions := by
  unfold spawn_threads
  induction per_thread with
  | nil => rfl
  | cons Ts rest ih =>
    rw [List.map_cons, List.flatMap_cons, List.flatMap_cons, ih]
    rfl

theorem spawn_threads_remaining (per_thread : List (List Nat)) :
    ((spawn_threads per_thread).map fun w => w.remaining.length).sum
      = (per_thread.flatMap found_solutions).length := by
  unfold spawn_threads
  induction per_thread with
  | nil => rfl
  | cons Ts rest ih =>
    rw [List.map_cons, List.map_cons, List.sum_cons, ih, List.flatMap_cons, List.length_append]

theorem candidates_flatMap (T_values : List Nat) :
    candidates T_values = T_values.flatMap fun T => candidates [T] := by
  unfold candidates
  simp only [List.flatMap_cons, List.flatMap_nil, List.append_nil]

theorem found_solutions_flatMap (T_values : List Nat) :
    found_solutions T_values = T_values.flatMap fun T => found_solutions [T] := by
  rw [found_solutions_eq, candidates_flatMap, List.filter_flatMap]
  simp only [found_solutions_eq]

theorem found_solutions_flatten (per_thread : List (List Nat)) :
    per_thread.flatMap found_solutions = found_solutions per_thread.flatten := by
  rw [found_solutions_flatMap per_thread.flatten, List.flatten_eq_flatMap, List.flatMap_assoc]
  congr 1
  funext Ts
  exact found_solutions_flatMap Ts

theorem found_solutions_perm (Ts Us : List Nat) (h : Ts.Perm Us) :
    (found_solutions Ts).Perm (found_solutions Us) := by
  rw [found_solutions_flatMap Ts, found_solutions_flatMap Us]
  exact h.flatMap_right _

/-! ### One run and the harness -/

theorem solve_range_total (T_values : List Nat) (st : Shared) :
    (solve_range T_values st).total_solutions
      = st.total_solutions + (found_solutions T_values).length := by
  rw [solve_range_eq_record, record_all_total]

theorem solve_range_asgs (T_values : List Nat) (st : Shared) :
    (solve_range T_values st).solutions.map SolutionRecord.asg
      = st.solutions.map SolutionRecord.asg ++ found_solutions T_values := by
  rw [solve_range_eq_record, record_all_asgs]

/-- A thread stepped to completion on its own does what `solve_range` does. -/
theorem finish_worker_eq_solve_range (T_values : List Nat) (st : Shared) :
    finish_worker ⟨found_solutions T_values, Phase.searching⟩ st = solve_range T_values st := by
  rw [solve_range_eq_record]
  rfl

theorem run_threads_outcome (n : Nat) (hn : 0 < n) (schedule : List Nat) (st : Shared) :
    ∃ fin, run_threads n schedule st = some fin ∧
      fin.total_solutions = st.total_solutions + (found_solutions valid_T_values).length ∧
      (fin.solutions.map SolutionRecord.asg).Perm
        (st.solutions.map SolutionRecord.asg ++ found_solutions valid_T_values) := by
  unfold run_threads
  rw [T_values_per_thread_eq n _ hn]
  have hperm := found_solutions_perm _ _ (round_robin_perm n valid_T_values hn)
  refine ⟨_, rfl, ?_, ?_⟩
  · rw [join_threads_total, run_schedule_total, spawn_threads_remaining,
      found_solutions_flatten, hperm.length_eq]
  · rw [join_threads_asgs]
    refine (run_schedule_asgs _ _).trans ?_
    rw [spawn_threads_pending, found_solutions_flatten]
    exact List.Perm.append_left _ hperm

theorem num_threads_pos (hardware_concurrency : Nat) : 0 < num_threads hardware_concurrency := by
  unfold num_threads
  split <;> omega

theorem run_once_outcome (hardware_concurrency : Nat) (schedule : List Nat) (st : Shared) :
    ∃ fin, run_once hardware_concurrency schedule st = some fin ∧
      fin.total_solutions = st.total_solutions + (found_solutions valid_T_values).length ∧
      (fin.solutions.map SolutionRecord.asg).Perm
        (st.solutions.map SolutionRecord.asg ++ found_solutions valid_T_values) :=
  run_threads_outcome _ (num_threads_pos _) schedule st

theorem total_of_zero (st : Shared) (h : st.total_solutions = 0) (x count : Nat)
    (hx : x = st.total_solutions + count) : x = count := by
  rw [hx, h, Nat.zero_add]

theorem asgs_of_empty (st : Shared) (h : st.solutions = []) (l found : List Assignment)
    (hl : l.Perm (st.solutions.map SolutionRecord.asg ++ found)) : l.Perm found := by
  rw [h, List.map_nil, List.nil_append] at hl
  exact hl

theorem solve_range_fresh_total (T_values : List Nat) :
    (solve_range T_values ⟨0, []⟩).total_solutions = (found_solutions T_values).length :=
  total_of_zero ⟨0, []⟩ rfl _ _ (solve_range_total T_values ⟨0, []⟩)

theorem solve_range_fresh_asgs (T_values : List Nat) :
    (solve_range T_values ⟨0, []⟩).solutions.map SolutionRecord.asg
      = found_solutions T_values := by
  rw [solve_range_asgs]
  rfl

/-- A run of `n` threads from the counter at zero and an empty collection. -/
theorem run_threads_fresh (n : Nat) (hn : 0 < n) (schedule : List Nat) :
    ∃ fin, run_threads n schedule ⟨0, []⟩ = some fin ∧
      fin.total_solutions = (found_solutions valid_T_values).length ∧
      (fin.solutions.map SolutionRecord.asg).Perm (found_solutions valid_T_values) := by
  obtain ⟨fin, hfin, htotal, hasgs⟩ := run_threads_outcome n hn schedule ⟨0, []⟩
  exact ⟨fin, hfin, total_of_zero ⟨0, []⟩ rfl _ _ htotal, asgs_of_empty ⟨0, []⟩ rfl _ _ hasgs⟩

/-- One iteration of the harness, after the reset of lines 108-109. -/
theorem run_once_fresh (hardware_concurrency : Nat) (schedule : List Nat) (previous : Bench) :
    ∃ fin, run_once hardware_concurrency schedule (reset previous) = some fin ∧
      fin.total_solutions = (found_solutions valid_T_values).length ∧
      (fin.solutions.map SolutionRecord.asg).Perm (found_solutions valid_T_values) := by
  obtain ⟨fin, hfin, htotal, hasgs⟩ :=
    run_once_outcome hardware_concurrency schedule (reset previous)
  exact ⟨fin, hfin, total_of_zero (reset previous) rfl _ _ htotal,
    asgs_of_empty (reset previous) rfl _ _ hasgs⟩

theorem harness_loop (hardware_concurrency : Nat) (schedule : Nat → List Nat)
    (indices : List Nat) (bench : Bench) :
    ∃ fin : Bench,
      indices.foldlM (fun bench i =>
        match run_once hardware_concurrency (schedule i) (reset bench) with
        | none => none
        | some fin =>
          some { total_solutions := fin.total_solutions,
                 times_size := bench.times_size + 1,
                 solutions_counts := bench.solutions_counts ++ [fin.total_solutions] })
        bench = some fin ∧
      fin.solutions_counts = bench.solutions_counts
        ++ List.replicate indices.length (found_solutions valid_T_values).length ∧
      fin.times_size = bench.times_size + indices.length := by
  induction indices generalizing bench with
  | nil =>
    exact ⟨bench, rfl, by rw [List.length_nil, List.replicate_zero, List.append_nil], rfl⟩
  | cons i rest ih =>
    obtain ⟨fin, hrun, htotal, -⟩ := run_once_fresh hardware_concurrency (schedule i) bench
    rw [List.foldlM_cons, hrun]
    simp only [Option.bind_eq_bind, Option.some_bind]
    obtain ⟨out, hout, hcounts, htimes⟩ := ih
      { total_solutions := fin.total_solutions,
        times_size := bench.times_size + 1,
        solutions_counts := bench.solutions_counts ++ [fin.total_solutions] }
    refine ⟨out, hout, ?_, ?_⟩
    · rw [hcounts, htotal, List.length_cons, List.replicate_succ, List.append_assoc,
        List.singleton_append]
    · rw [htimes, List.length_cons]
      simp only
      omega

/-- The loop of the harness always completes, with one entry on `times` and one
count per iteration. -/
theorem benchmark_runs_outcome (iterations hardware_concurrency : Nat)
    (schedule : Nat → List Nat) :
    ∃ bench, benchmark_runs iterations hardware_concurrency schedule = some bench ∧
      bench.solutions_counts
        = List.replicate iterations (found_solutions valid_T_values).length ∧
      bench.times_size = iterations := by
  obtain ⟨fin, hfin, hcounts, htimes⟩ := harness_loop hardware_concurrency schedule
    (List.range iterations) { total_solutions := 0, times_size := 0, solutions_counts := [] }
  refine ⟨fin, hfin, ?_, ?_⟩
  · rw [hcounts, List.nil_append, List.length_range]
  · rw [htimes, List.length_range]
    exact Nat.zero_add _

/-- With no iteration `times` is empty and line 150 faults. -/
theorem runMultipleTimes_zero (hardware_concurrency : Nat) (schedule : Nat → List Nat) :
    runMultipleTimes 0 hardware_concurrency schedule = none := by
  rfl

/-- With at least one iteration the harness returns, with one count per
iteration. -/
theorem runMultipleTimes_outcome (iterations hardware_concurrency : Nat)
    (schedule : Nat → List Nat) (hpos : 1 ≤ iterations) :
    ∃ bench, runMultipleTimes iterations hardware_concurrency schedule = some bench ∧
      bench.solutions_counts
        = List.replicate iterations (found_solutions valid_T_values).length := by
  obtain ⟨bench, hbench, hcounts, htimes⟩ :=
    benchmark_runs_outcome iterations hardware_concurrency schedule
  refine ⟨bench, ?_, hcounts⟩
  unfold runMultipleTimes
  rw [hbench]
  have hne : ¬ bench.times_size = 0 := by
    rw [htimes]
    omega
  simp only [hne, if_false]

/-! ### The solution set -/

theorem valid_T_values_le (T : Nat) (h : T ∈ valid_T_values) : T ≤ 9 := by
  rw [valid_T_values_eq] at h
  simp only [List.mem_cons, List.mem_singleton, List.not_mem_nil, or_false] at h
  omega

theorem is_solution_T_valid (a : Assignment) (h : is_solution a) : a.T ∈ valid_T_values := by
  obtain ⟨hd, hnd, heq⟩ := h
  have hT : a.T ≤ 9 := hd _ (by simp [letters])
  have hH : a.H ≤ 9 := hd _ (by simp [letters])
  have hu := units_column a hH heq
  have hne : a.T ≠ a.H := by
    simp only [letters, List.nodup_cons, List.mem_cons, List.mem_singleton, not_or] at hnd
    exact hnd.2.2.2.1.1
  rw [valid_T_values_eq]
  simp only [List.mem_cons, List.mem_singleton, List.not_mem_nil, or_false]
  unfold derived_H at hu
  omega

theorem mem_found_valid (a : Assignment) :
    a ∈ found_solutions valid_T_values ↔ is_solution a := by
  rw [mem_found_solutions _ valid_T_values_le]
  exact ⟨fun h => h.2, fun h => ⟨is_solution_T_valid a h, h⟩⟩

theorem nodup_found_solutions (T_values : List Nat) (h : T_values.Nodup) :
    (found_solutions T_values).Nodup := by
  rw [found_solutions_eq]
  exact (nodup_candidates T_values h).filter _

theorem nodup_valid_T_values : valid_T_values.Nodup := by
  rw [valid_T_values_eq]
  decide

theorem ncard_solutions :
    Set.ncard {a | is_solution a} = (found_solutions valid_T_values).length := by
  have hset : {a | is_solution a} = ((found_solutions valid_T_values).toFinset : Set Assignment) := by
    ext a
    simp [mem_found_valid]
  rw [hset, Set.ncard_coe_Finset,
    List.toFinset_card_of_nodup (nodup_found_solutions _ nodup_valid_T_values)]

theorem found_solutions_pos : 0 < (found_solutions valid_T_values).length := by
  have hsol : is_solution ⟨1, 3, 9, 5, 0, 4, 8, 2, 6, 7⟩ := by
    unfold is_solution
    decide
  exact List.length_pos_of_mem ((mem_found_valid _).mpr hsol)

theorem finite_solutions : Set.Finite {a | is_solution a} := by
  have hset : {a | is_solution a} = ((found_solutions valid_T_values).toFinset : Set Assignment) := by
    ext a
    simp [mem_found_valid]
  rw [hset]
  exact Finset.finite_toSet _

/-! ### A single thread, and more threads than values -/

theorem finish_worker_step (w : Worker) (sh : Shared) :
    finish_worker (worker_step w sh).1 (worker_step w sh).2 = finish_worker w sh := by
  obtain ⟨rem, ph⟩ := w
  cases ph with
  | searching =>
    cases rem with
    | nil => rfl
    | cons a rest => rfl
  | counted a => rfl
  | labelled r => rfl

theorem join_threads_step_single (w : Worker) (sh : Shared) (i : Nat) :
    ∃ w2 sh2, step ⟨sh, [w]⟩ i = ⟨sh2, [w2]⟩ ∧ finish_worker w2 sh2 = finish_worker w sh := by
  cases i with
  | zero => exact ⟨_, _, rfl, finish_worker_step w sh⟩
  | succ i => exact ⟨w, sh, rfl, rfl⟩

theorem join_threads_single (w : Worker) (sh : Shared) (schedule : List Nat) :
    join_threads (run_schedule ⟨sh, [w]⟩ schedule) = finish_worker w sh := by
  unfold run_schedule
  induction schedule generalizing w sh with
  | nil => rfl
  | cons i rest ih =>
    obtain ⟨w2, sh2, hstep, hfin⟩ := join_threads_step_single w sh i
    rw [List.foldl_cons, hstep, ih, hfin]

/-- With one thread every interleaving is the sequential run of `solve_range`
over all valid `T` values in order. -/
theorem run_threads_one (schedule : List Nat) (st : Shared) :
    run_threads 1 schedule st = some (solve_range valid_T_values st) := by
  have hpart : T_values_per_thread 1 valid_T_values = some [valid_T_values] := by decide
  unfold run_threads
  rw [hpart]
  simp only [spawn_threads, List.map_cons, List.map_nil]
  rw [join_threads_single, finish_worker_eq_solve_range]

theorem filter_range_eq (m j : Nat) :
    (List.range m).filter (fun i => decide (i = j)) = if j < m then [j] else [] := by
  induction m with
  | zero => simp
  | succ m ih =>
    rw [List.range_succ, List.filter_append, ih]
    by_cases h1 : j < m
    · have h2 : ¬ m = j := by omega
      simp [h1, h2, Nat.lt_succ_of_lt h1]
    · by_cases h3 : m = j
      · subst h3
        simp
      · have h4 : ¬ j < m + 1 := by omega
        simp [h1, h3, h4]

/-- With at least as many threads as values, thread `j` receives the `j`-th
value alone and the threads beyond the last value receive nothing. -/
theorem round_robin_many_threads (n : Nat) (vals : List Nat) (hn : 0 < n)
    (hlen : vals.length ≤ n) :
    T_values_per_thread n vals
      = some (vals.map (fun T => [T]) ++ List.replicate (n - vals.length) []) := by
  rw [T_values_per_thread_eq n vals hn]
  apply congrArg
  apply List.ext_getElem
  · simp
    omega
  · intro j h1 h2
    simp only [List.length_map, List.length_range] at h1
    have hfilter : (List.range vals.length).filter (fun i => decide (i % n = j))
        = (List.range vals.length).filter (fun i => decide (i = j)) := by
      apply List.filter_congr
      intro i hi
      rw [List.mem_range] at hi
      rw [Nat.mod_eq_of_lt (by omega)]
    simp only [List.getElem_map, List.getElem_range, hfilter, filter_range_eq]
    by_cases hj : j < vals.length
    · rw [List.getElem_append_left (by simpa using hj)]
      simp [hj]
    · rw [List.getElem_append_right (by simpa using hj)]
      simp [hj]

/-! ## The claims -/

/-- C1. Soundness of `solve_range`: for every list of `T` values drawn from
0..9 and every state of the shared collection, the collection afterwards is the
old one followed by the emitted entries, and every emitted entry binds the ten
letters to pairwise distinct digits in 0..9 with
`NORTH + EAST + SOUTH + WEST = EARTH` over the derived integers. -/
theorem solve_range_sound (T_values : List Nat) (st : Shared)
    (hT : ∀ T ∈ T_values, T ≤ 9) :
    (solve_range T_values st).solutions = st.solutions ++ emitted T_values st ∧
      ∀ r ∈ emitted T_values st,
        (∀ d ∈ letters r.asg, d ≤ 9) ∧ (letters r.asg).Nodup ∧
          NORTH r.asg + EAST r.asg + SOUTH r.asg + WEST r.asg = EARTH r.asg := by
  refine ⟨solutions_eq_append_emitted T_values st, ?_⟩
  intro r hr
  have hmem : r.asg ∈ found_solutions T_values := by
    rw [← emitted_asg T_values st]
    exact List.mem_map_of_mem _ hr
  exact ((mem_found_solutions T_values hT r.asg).mp hmem).2

theorem solve_range_sound_witness :
    (∀ T ∈ [1, 5, 8], T ≤ 9) ∧
      ((solve_range [1, 5, 8] ⟨0, []⟩).solutions
          = (⟨0, []⟩ : Shared).solutions ++ emitted [1, 5, 8] ⟨0, []⟩ ∧
        ∀ r ∈ emitted [1, 5, 8] ⟨0, []⟩,
          (∀ d ∈ letters r.asg, d ≤ 9) ∧ (letters r.asg).Nodup ∧
            NORTH r.asg + EAST r.asg + SOUTH r.asg + WEST r.asg = EARTH r.asg) :=
  ⟨by decide, solve_range_sound [1, 5, 8] ⟨0, []⟩ (by decide)⟩

/-- C2. Completeness of the full search: for every worker count `n ≥ 1` the
partition of the valid `T` values into `n` per-worker lists succeeds, every
injective binding of the ten letters to digits 0..9 with
`NORTH + EAST + SOUTH + WEST = EARTH` is emitted by `solve_range` on one of these
lists (from whatever shared state it starts), nothing else is emitted on any of
them, and the collection merged from the `n` threads under any interleaving
holds exactly the solutions of the equation. -/
theorem search_complete (n : Nat) (hn : 1 ≤ n) (schedule : List Nat) :
    ∃ per_thread, T_values_per_thread n valid_T_values = some per_thread ∧
      per_thread.length = n ∧
      (∀ a, is_solution a →
        ∃ T_values ∈ per_thread, ∀ st, a ∈ (emitted T_values st).map SolutionRecord.asg) ∧
      (∀ T_values ∈ per_thread, ∀ st, ∀ a ∈ (emitted T_values st).map SolutionRecord.asg,
        is_solution a) ∧
      ∃ fin, run_threads n schedule ⟨0, []⟩ = some fin ∧
        ∀ a, is_solution a ↔ a ∈ fin.solutions.map SolutionRecord.asg := by
  have hperm := round_robin_perm n valid_T_values hn
  refine ⟨_, T_values_per_thread_eq n valid_T_values hn, by simp, ?_, ?_, ?_⟩
  · intro a ha
    have hT : a.T ∈ _ := hperm.mem_iff.mpr (is_solution_T_valid a ha)
    obtain ⟨T_values, hmem, hTin⟩ := List.mem_flatten.mp hT
    refine ⟨T_values, hmem, fun st => ?_⟩
    rw [emitted_asg, found_solutions_flatMap, List.mem_flatMap]
    exact ⟨a.T, hTin, by
      rw [mem_found_solutions [a.T] (by
        intro T hTmem
        rw [List.mem_singleton] at hTmem
        rw [hTmem]
        exact valid_T_values_le _ (is_solution_T_valid a ha))]
      exact ⟨List.mem_singleton.mpr rfl, ha⟩⟩
  · intro T_values hmem st a ha
    rw [emitted_asg] at ha
    have hle : ∀ T ∈ T_values, T ≤ 9 := fun T hTin =>
      valid_T_values_le T (hperm.mem_iff.mp (List.mem_flatten.mpr ⟨T_values, hmem, hTin⟩))
    exact ((mem_found_solutions T_values hle a).mp ha).2
  · obtain ⟨fin, hfin, -, hasgs⟩ := run_threads_fresh n hn schedule
    refine ⟨fin, hfin, fun a => ?_⟩
    rw [hasgs.mem_iff, mem_found_valid]

theorem search_complete_witness :
    1 ≤ 2 ∧
      ∃ per_thread, T_values_per_thread 2 valid_T_values = some per_thread ∧
        per_thread.length = 2 ∧
        (∀ a, is_solution a →
          ∃ T_values ∈ per_thread, ∀ st, a ∈ (emitted T_values st).map SolutionRecord.asg) ∧
        (∀ T_values ∈ per_thread, ∀ st, ∀ a ∈ (emitted T_values st).map SolutionRecord.asg,
          is_solution a) ∧
        ∃ fin, run_threads 2 [0, 1, 1, 0, 1] ⟨0, []⟩ = some fin ∧
          ∀ a, is_solution a ↔ a ∈ fin.solutions.map SolutionRecord.asg :=
  ⟨by decide, search_complete 2 (by decide) [0, 1, 1, 0, 1]⟩

/-- C3, as the code has it for `T = 5`: the derived `H` of `T = 5` is 0, not 5, so
`solve_range` on the list `[5]` does test candidates, among them
N=1, O=3, R=9, T=5, H=0, E=4, A=8, S=2, W=6, U=7, and emits that binding as a
solution (13950 + 4825 + 23750 + 6425 = 48950). -/
theorem T5_is_searched_and_solves :
    (∀ T ∈ [5], T ≤ 9) ∧ derived_H 5 = 0 ∧
      (⟨1, 3, 9, 5, 0, 4, 8, 2, 6, 7⟩ : Assignment) ∈ tested_candidates [5] ∧
      (∃ r ∈ emitted [5] ⟨0, []⟩, r.asg = ⟨1, 3, 9, 5, 0, 4, 8, 2, 6, 7⟩ ∧ r.asg.T = 5) ∧
      NORTH ⟨1, 3, 9, 5, 0, 4, 8, 2, 6, 7⟩ + EAST ⟨1, 3, 9, 5, 0, 4, 8, 2, 6, 7⟩
        + SOUTH ⟨1, 3, 9, 5, 0, 4, 8, 2, 6, 7⟩ + WEST ⟨1, 3, 9, 5, 0, 4, 8, 2, 6, 7⟩
        = EARTH ⟨1, 3, 9, 5, 0, 4, 8, 2, 6, 7⟩ := by
  have hsol : is_solution ⟨1, 3, 9, 5, 0, 4, 8, 2, 6, 7⟩ := by
    unfold is_solution
    decide
  have hfound : (⟨1, 3, 9, 5, 0, 4, 8, 2, 6, 7⟩ : Assignment) ∈ found_solutions [5] :=
    (mem_found_solutions [5] (by decide) _).mpr ⟨by decide, hsol⟩
  refine ⟨by decide, by decide, ?_, ?_, by decide⟩
  · rw [tested_candidates_eq]
    rw [found_solutions_eq] at hfound
    exact (List.mem_filter.mp hfound).1
  · rw [← emitted_asg [5] ⟨0, []⟩, List.mem_map] at hfound
    obtain ⟨r, hr, hasg⟩ := hfound
    exact ⟨r, hr, hasg, by rw [hasg]⟩

/-- C3, amended: `T = 0` never appears in any solution.  For every input list of
`T` values and every shared state, no binding with `T = 0` reaches the equation
test, so `solve_range` skips `T = 0` without testing any candidate for it, and no
emitted solution has `T = 0`; the reason is the self-collision
`derived_H 0 = 0`. -/
theorem T0_is_skipped (T_values : List Nat) (st : Shared) :
    derived_H 0 = 0 ∧
      (∀ a ∈ tested_candidates T_values, a.T ≠ 0) ∧
      (∀ r ∈ emitted T_values st, r.asg.T ≠ 0) ∧
      tested_candidates [0] = [] ∧ emitted [0] st = [] := by
  have hcand : ∀ Ts : List Nat, ∀ a ∈ candidates Ts, a.T ≠ 0 := by
    intro Ts a ha
    obtain ⟨-, hH, hnd, -⟩ := (mem_candidates Ts a).mp ha
    have hne : a.T ≠ a.H := by
      simp only [letters, List.nodup_cons, List.mem_cons, List.mem_singleton, not_or] at hnd
      exact hnd.2.2.2.1.1
    intro h0
    rw [h0] at hH hne
    exact hne (by rw [hH]; decide)
  have hnone : candidates [0] = [] := by
    apply List.eq_nil_iff_forall_not_mem.mpr
    intro a ha
    have hT : a.T = 0 := by simpa using ((mem_candidates [0] a).mp ha).1
    exact hcand [0] a ha hT
  refine ⟨by decide, ?_, ?_, ?_, ?_⟩
  · rw [tested_candidates_eq]
    exact hcand T_values
  · intro r hr
    have hmem : r.asg ∈ found_solutions T_values := by
      rw [← emitted_asg T_values st]
      exact List.mem_map_of_mem _ hr
    rw [found_solutions_eq] at hmem
    exact hcand T_values _ (List.mem_filter.mp hmem).1
  · rw [tested_candidates_eq, hnone]
  · rw [emitted_eq, found_solutions_eq, hnone]
    rfl

/-- C4, as the code has it: the loop of lines 117-122 collects nine values, not
eight; `T = 5` is among them because its derived `H` is 0, which differs
from 5. -/
theorem valid_T_values_not_eight :
    valid_T_values.length = 9 ∧ valid_T_values.length ≠ 8 ∧ 5 ∈ valid_T_values ∧
      derived_H 5 = 0 ∧ derived_H 5 ≠ 5 := by
  decide

/-- C4, amended: the valid outer values for `T` computed before each run, the
digits `T` in 0..9 whose derived `H = (10 - (2T mod 10)) mod 10` differs from
`T`, are the nine digits 1..9; the only excluded digit is `T = 0`, the only
digit whose derived `H` equals `T`. -/
theorem valid_T_values_nine :
    valid_T_values = [1, 2, 3, 4, 5, 6, 7, 8, 9] ∧ valid_T_values.length = 9 ∧
      (∀ T ∈ List.range 10, (T ∈ valid_T_values ↔ derived_H T ≠ T)) ∧
      (∀ T ∈ List.range 10, (derived_H T = T ↔ T = 0)) := by
  decide

/-- C5. Worker-count independence: for every worker count `n ≥ 1` and every
interleaving of the `n` threads, the run ends with the same solution count and
the same solution bindings (as a collection, up to order) as the run with a
single thread, which under every schedule is `solve_range` over all valid `T`
values in order. -/
theorem worker_count_independent (n : Nat) (hn : 1 ≤ n) (schedule single_schedule : List Nat) :
    ∃ fin single, run_threads n schedule ⟨0, []⟩ = some fin ∧
      run_threads 1 single_schedule ⟨0, []⟩ = some single ∧
      single = solve_range valid_T_values ⟨0, []⟩ ∧
      fin.total_solutions = single.total_solutions ∧
      (fin.solutions.map SolutionRecord.asg).Perm (single.solutions.map SolutionRecord.asg) := by
  obtain ⟨fin, hfin, htotal, hasgs⟩ := run_threads_fresh n hn schedule
  refine ⟨fin, _, hfin, run_threads_one single_schedule ⟨0, []⟩, rfl, ?_, ?_⟩
  · rw [htotal, solve_range_fresh_total]
  · rw [solve_range_fresh_asgs]
    exact hasgs

theorem worker_count_independent_witness :
    1 ≤ 4 ∧
      ∃ fin single, run_threads 4 [0, 1, 2, 3, 3, 2, 1, 0, 0] ⟨0, []⟩ = some fin ∧
        run_threads 1 [0, 0, 0] ⟨0, []⟩ = some single ∧
        single = solve_range valid_T_values ⟨0, []⟩ ∧
        fin.total_solutions = single.total_solutions ∧
        (fin.solutions.map SolutionRecord.asg).Perm
          (single.solutions.map SolutionRecord.asg) :=
  ⟨by decide, worker_count_independent 4 (by decide) [0, 1, 2, 3, 3, 2, 1, 0, 0] [0, 0, 0]⟩

/-- C6. The partition covers each value once: for every worker count `n ≥ 1`
the round-robin distribution succeeds with `n` per-worker lists whose
concatenation is a permutation of the valid `T` values, which are pairwise
disjoint, and of which exactly one contains any given valid `T` value. -/
theorem partition_covers_once (n : Nat) (hn : 1 ≤ n) :
    ∃ per_thread, T_values_per_thread n valid_T_values = some per_thread ∧
      per_thread.length = n ∧
      per_thread.flatten.Perm valid_T_values ∧
      per_thread.Pairwise List.Disjoint ∧
      ∀ T ∈ valid_T_values, (per_thread.filter fun b => decide (T ∈ b)).length = 1 := by
  have hperm := round_robin_perm n valid_T_values hn
  have hnodup := hperm.nodup_iff.mpr nodup_valid_T_values
  refine ⟨_, T_values_per_thread_eq n valid_T_values hn, by simp, hperm,
    pairwise_disjoint_of_nodup_flatten _ hnodup, ?_⟩
  intro T hT
  exact one_bucket _ hnodup T (hperm.mem_iff.mpr hT)

theorem partition_covers_once_witness :
    1 ≤ 4 ∧
      ∃ per_thread, T_values_per_thread 4 valid_T_values = some per_thread ∧
        per_thread.length = 4 ∧
        per_thread.flatten.Perm valid_T_values ∧
        per_thread.Pairwise List.Disjoint ∧
        ∀ T ∈ valid_T_values, (per_thread.filter fun b => decide (T ∈ b)).length = 1 :=
  ⟨by decide, partition_covers_once 4 (by decide)⟩

/-- C7. More workers than values: for every worker count `n` greater than the
number of valid `T` values, the partition succeeds (no index falls outside
`T_values_per_thread`), worker `j` receives the `j`-th valid value alone, so
each worker receives at most one value, the surplus workers receive the empty
list, on which `solve_range` emits nothing and leaves the shared state as it is,
and under every interleaving the merged result holds exactly the solutions of
the equation, with the same count and bindings as the run of one worker. -/
theorem more_workers_than_values (n : Nat) (hn : valid_T_values.length < n)
    (schedule : List Nat) :
    ∃ per_thread, T_values_per_thread n valid_T_values = some per_thread ∧
      per_thread.length = n ∧
      per_thread = valid_T_values.map (fun T => [T])
        ++ List.replicate (n - valid_T_values.length) [] ∧
      (∀ b ∈ per_thread, b.length ≤ 1) ∧
      (∀ j, valid_T_values.length ≤ j ∧ j < n → per_thread[j]? = some []) ∧
      (∀ st, solve_range [] st = st ∧ emitted [] st = []) ∧
      ∃ fin, run_threads n schedule ⟨0, []⟩ = some fin ∧
        (∀ a, is_solution a ↔ a ∈ fin.solutions.map SolutionRecord.asg) ∧
        fin.total_solutions = (solve_range valid_T_values ⟨0, []⟩).total_solutions ∧
        (fin.solutions.map SolutionRecord.asg).Perm
          ((solve_range valid_T_values ⟨0, []⟩).solutions.map SolutionRecord.asg) := by
  have hpos : 0 < n := by omega
  obtain ⟨fin, hfin, htotal, hasgs⟩ := run_threads_fresh n hpos schedule
  refine ⟨_, round_robin_many_threads n valid_T_values hpos (Nat.le_of_lt hn), ?_, rfl, ?_, ?_,
    ?_, fin, hfin, ?_, ?_, ?_⟩
  · simp only [List.length_append, List.length_map, List.length_replicate]
    omega
  · intro b hb
    rw [List.mem_append, List.mem_map] at hb
    rcases hb with ⟨T, -, rfl⟩ | hb
    · exact Nat.le_refl 1
    · rw [(List.mem_replicate.mp hb).2]
      exact Nat.zero_le 1
  · rintro j ⟨h1, h2⟩
    rw [List.getElem?_append_right (by simpa using h1)]
    rw [List.getElem?_replicate]
    simp only [List.length_map]
    rw [if_pos (by omega)]
  · intro st
    exact ⟨rfl, by simp [emitted, solve_range, search_loops]⟩
  · intro a
    rw [hasgs.mem_iff, mem_found_valid]
  · rw [htotal, solve_range_fresh_total]
  · rw [solve_range_fresh_asgs]
    exact hasgs

theorem more_workers_than_values_witness :
    valid_T_values.length < 16 ∧
      ∃ per_thread, T_values_per_thread 16 valid_T_values = some per_thread ∧
        per_thread.length = 16 ∧
        per_thread = valid_T_values.map (fun T => [T])
          ++ List.replicate (16 - valid_T_values.length) [] ∧
        (∀ b ∈ per_thread, b.length ≤ 1) ∧
        (∀ j, valid_T_values.length ≤ j ∧ j < 16 → per_thread[j]? = some []) ∧
        (∀ st, solve_range [] st = st ∧ emitted [] st = []) ∧
        ∃ fin, run_threads 16 [15, 0, 3, 3, 9, 8, 8, 8] ⟨0, []⟩ = some fin ∧
          (∀ a, is_solution a ↔ a ∈ fin.solutions.map SolutionRecord.asg) ∧
          fin.total_solutions = (solve_range valid_T_values ⟨0, []⟩).total_solutions ∧
          (fin.solutions.map SolutionRecord.asg).Perm
            ((solve_range valid_T_values ⟨0, []⟩).solutions.map SolutionRecord.asg) :=
  ⟨by decide, more_workers_than_values 16 (by decide) [15, 0, 3, 3, 9, 8, 8, 8]⟩

/-- C8. No state leaks between runs: for every iteration count `k ≥ 1`, every
platform concurrency level and every interleaving of each run, the harness
returns with exactly `k` recorded counts, each equal to the count of one fresh
sequential search, a positive number, so the counts are not running totals;
every iteration starts from the counter at zero and an empty collection
whatever the previous state was; and the solution bindings of any two runs,
ignoring the labels, are the same collection up to order. -/
theorem no_state_leak (k hardware_concurrency : Nat) (schedule : Nat → List Nat)
    (hk : 1 ≤ k) :
    ∃ bench, runMultipleTimes k hardware_concurrency schedule = some bench ∧
      bench.solutions_counts.length = k ∧
      (∀ c ∈ bench.solutions_counts,
        c = (solve_range valid_T_values ⟨0, []⟩).total_solutions) ∧
      0 < (solve_range valid_T_values ⟨0, []⟩).total_solutions ∧
      (∀ previous, reset previous = ⟨0, []⟩) ∧
      ∀ (b1 b2 : Bench) (s1 s2 : List Nat), ∃ f1 f2,
        run_once hardware_concurrency s1 (reset b1) = some f1 ∧
        run_once hardware_concurrency s2 (reset b2) = some f2 ∧
        f1.total_solutions = f2.total_solutions ∧
        (f1.solutions.map SolutionRecord.asg).Perm (f2.solutions.map SolutionRecord.asg) := by
  obtain ⟨bench, hbench, hcounts⟩ :=
    runMultipleTimes_outcome k hardware_concurrency schedule hk
  refine ⟨bench, hbench, ?_, ?_, ?_, fun _ => rfl, ?_⟩
  · rw [hcounts, List.length_replicate]
  · intro c hc
    rw [hcounts] at hc
    rw [(List.mem_replicate.mp hc).2, solve_range_fresh_total]
  · rw [solve_range_fresh_total]
    exact found_solutions_pos
  · intro b1 b2 s1 s2
    obtain ⟨f1, h1, t1, a1⟩ := run_once_fresh hardware_concurrency s1 b1
    obtain ⟨f2, h2, t2, a2⟩ := run_once_fresh hardware_concurrency s2 b2
    exact ⟨f1, f2, h1, h2, t1.trans t2.symm, a1.trans a2.symm⟩

theorem no_state_leak_witness :
    1 ≤ 3 ∧
      ∃ bench, runMultipleTimes 3 2 (fun i => [i, 0, 1]) = some bench ∧
        bench.solutions_counts.length = 3 ∧
        (∀ c ∈ bench.solutions_counts,
          c = (solve_range valid_T_values ⟨0, []⟩).total_solutions) ∧
        0 < (solve_range valid_T_values ⟨0, []⟩).total_solutions ∧
        (∀ previous, reset previous = ⟨0, []⟩) ∧
        ∀ (b1 b2 : Bench) (s1 s2 : List Nat), ∃ f1 f2,
          run_once 2 s1 (reset b1) = some f1 ∧
          run_once 2 s2 (reset b2) = some f2 ∧
          f1.total_solutions = f2.total_solutions ∧
          (f1.solutions.map SolutionRecord.asg).Perm (f2.solutions.map SolutionRecord.asg) :=
  ⟨by decide, no_state_leak 3 2 (fun i => [i, 0, 1]) (by decide)⟩

/-- C9. The recorded count is the number of distinct solutions: in one run,
under every interleaving, the per-worker solution lists taken together hold no
binding twice (neither within one worker nor across two workers), the merged
collection holds no binding twice and has as many entries as the counter says,
and the counter equals the number of injective letter-to-digit bindings with
`NORTH + EAST + SOUTH + WEST = EARTH`, a finite set; it is the count the harness
records for every run, whenever the harness makes at least one run. -/
theorem count_is_number_of_solutions (hardware_concurrency : Nat) (schedule : List Nat)
    (previous : Bench) :
    ∃ per_thread fin,
      T_values_per_thread (num_threads hardware_concurrency) valid_T_values = some per_thread ∧
      (per_thread.flatMap found_solutions).Nodup ∧
      run_once hardware_concurrency schedule (reset previous) = some fin ∧
      (fin.solutions.map SolutionRecord.asg).Nodup ∧
      fin.solutions.length = fin.total_solutions ∧
      Set.Finite {a | is_solution a} ∧
      fin.total_solutions = Set.ncard {a | is_solution a} ∧
      ∀ (k : Nat) (schedules : Nat → List Nat), 1 ≤ k → ∃ bench,
        runMultipleTimes k hardware_concurrency schedules = some bench ∧
        ∀ c ∈ bench.solutions_counts, c = Set.ncard {a | is_solution a} := by
  have hpos := num_threads_pos hardware_concurrency
  have hperm := round_robin_perm (num_threads hardware_concurrency) valid_T_values hpos
  obtain ⟨fin, hfin, hcount, hasgs⟩ := run_once_fresh hardware_concurrency schedule previous
  have hnodup : (fin.solutions.map SolutionRecord.asg).Nodup :=
    hasgs.nodup_iff.mpr (nodup_found_solutions _ nodup_valid_T_values)
  refine ⟨_, fin, T_values_per_thread_eq _ valid_T_values hpos, ?_, hfin, hnodup, ?_,
    finite_solutions, ?_, ?_⟩
  · rw [found_solutions_flatten]
    exact nodup_found_solutions _ (hperm.nodup_iff.mpr nodup_valid_T_values)
  · rw [hcount, ← hasgs.length_eq, List.length_map]
  · rw [hcount, ncard_solutions]
  · intro k schedules hk
    obtain ⟨bench, hbench, hcounts⟩ :=
      runMultipleTimes_outcome k hardware_concurrency schedules hk
    refine ⟨bench, hbench, ?_⟩
    intro c hc
    rw [hcounts] at hc
    rw [(List.mem_replicate.mp hc).2, ncard_solutions]

/-- C10. Worker-count fallback: the worker count of a run is the
platform-reported concurrency level when that is non-zero and 4 when the
platform reports zero; it is never zero, so the round-robin partition, which
faults on a zero worker count, succeeds with that many lists, every run returns
a result instead of a fault, and so does the harness for every iteration count
`k ≥ 1`. -/
theorem worker_count_fallback (hardware_concurrency : Nat) :
    (hardware_concurrency ≠ 0 ∧ num_threads hardware_concurrency = hardware_concurrency ∨
      hardware_concurrency = 0 ∧ num_threads hardware_concurrency = 4) ∧
    num_threads 0 = 4 ∧
    num_threads hardware_concurrency ≠ 0 ∧
    T_values_per_thread 0 valid_T_values = none ∧
    (∃ per_thread,
      T_values_per_thread (num_threads hardware_concurrency) valid_T_values = some per_thread ∧
      per_thread.length = num_threads hardware_concurrency) ∧
    (∀ schedule st, ∃ fin, run_once hardware_concurrency schedule st = some fin) ∧
    ∀ k schedules, 1 ≤ k →
      ∃ bench, runMultipleTimes k hardware_concurrency schedules = some bench := by
  have hpos := num_threads_pos hardware_concurrency
  refine ⟨?_, rfl, Nat.ne_of_gt hpos, by decide,
    ⟨_, T_values_per_thread_eq _ valid_T_values hpos, by simp⟩, ?_, ?_⟩
  · unfold num_threads
    by_cases h : hardware_concurrency = 0
    · exact Or.inr ⟨h, if_pos h⟩
    · exact Or.inl ⟨h, if_neg h⟩
  · intro schedule st
    obtain ⟨fin, hfin, -⟩ := run_once_outcome hardware_concurrency schedule st
    exact ⟨fin, hfin⟩
  · intro k schedules hk
    obtain ⟨bench, hbench, -⟩ := runMultipleTimes_outcome k hardware_concurrency schedules hk
    exact ⟨bench, hbench⟩


/-! ### Word values and labels -/

theorem decimal_value_append (ds : List Nat) (d : Nat) :
    decimal_value (ds ++ [d]) = 10 * decimal_value ds + d := by
  unfold decimal_value
  rw [List.foldl_append]
  rfl

/-- The most-significant-first reading agrees with the little-endian
`Nat.ofDigits` on the reversed sequence. -/
theorem decimal_value_eq_ofDigits (ds : List Nat) :
    decimal_value ds = Nat.ofDigits 10 ds.reverse := by
  induction ds using List.reverseRecOn with
  | nil => rfl
  | append_singleton ds d ih =>
    rw [decimal_value_append, List.reverse_append, List.reverse_singleton, List.singleton_append,
      Nat.ofDigits_cons, ih]
    omega

theorem fresh_solutions (T_values : List Nat) :
    (solve_range T_values ⟨0, []⟩).solutions
      = (List.range (found_solutions T_values).length).zipWith
          (fun k a => (⟨k + 1, a⟩ : SolutionRecord)) (found_solutions T_values) := by
  rw [solve_range_eq_record, record_all_solutions, List.nil_append]
  apply congrArg (fun f => List.zipWith f _ _)
  funext k a
  rw [Nat.zero_add]

theorem render_label (r : SolutionRecord) :
    ∃ rest, render r = "Solution " ++ toString r.index ++ ":\n" ++ rest := by
  unfold render
  simp only [String.append_assoc]
  exact ⟨_, rfl⟩

/-- C16. Derived word values are the positional readings: the five integers
computed at lines 66-70 equal the base-10 value of each word's digit sequence
read most significant first, NORTH of [N,O,R,T,H], EAST of [E,A,S,T], SOUTH of
[S,O,U,T,H], WEST of [W,E,S,T] and EARTH of [E,A,R,T,H], for all digits (in
particular for digits in 0..9), and the equation test of line 73 is the test
on these readings. -/
theorem word_values_positional (a : Assignment) :
    NORTH a = decimal_value [a.N, a.O, a.R, a.T, a.H] ∧
      EAST a = decimal_value [a.E, a.A, a.S, a.T] ∧
      SOUTH a = decimal_value [a.S, a.O, a.U, a.T, a.H] ∧
      WEST a = decimal_value [a.W, a.E, a.S, a.T] ∧
      EARTH a = decimal_value [a.E, a.A, a.R, a.T, a.H] ∧
      (equation_holds a = true ↔
        decimal_value [a.N, a.O, a.R, a.T, a.H] + decimal_value [a.E, a.A, a.S, a.T]
            + decimal_value [a.S, a.O, a.U, a.T, a.H] + decimal_value [a.W, a.E, a.S, a.T]
          = decimal_value [a.E, a.A, a.R, a.T, a.H]) := by
  have hN : NORTH a = decimal_value [a.N, a.O, a.R, a.T, a.H] := by
    simp only [NORTH, decimal_value, List.foldl_cons, List.foldl_nil]
    omega
  have hE : EAST a = decimal_value [a.E, a.A, a.S, a.T] := by
    simp only [EAST, decimal_value, List.foldl_cons, List.foldl_nil]
    omega
  have hS : SOUTH a = decimal_value [a.S, a.O, a.U, a.T, a.H] := by
    simp only [SOUTH, decimal_value, List.foldl_cons, List.foldl_nil]
    omega
  have hW : WEST a = decimal_value [a.W, a.E, a.S, a.T] := by
    simp only [WEST, decimal_value, List.foldl_cons, List.foldl_nil]
    omega
  have hR : EARTH a = decimal_value [a.E, a.A, a.R, a.T, a.H] := by
    simp only [EARTH, decimal_value, List.foldl_cons, List.foldl_nil]
    omega
  refine ⟨hN, hE, hS, hW, hR, ?_⟩
  rw [equation_holds_iff, hN, hE, hS, hW, hR]

/-- C12. The H-from-T pruning loses nothing: for all digits N, O, R, T, H, E, A,
S, W, U in 0..9, distinct or not, `NORTH + EAST + SOUTH + WEST = EARTH` over the
derived integers forces `H = (10 - (2T mod 10)) mod 10`; and if the digits are
moreover pairwise distinct, the derived `H` differs from `T`, so `T` is among the
valid values, the binding reaches the equation test of `solve_range` for its
`T`, and it is found, both for that `T` alone and in the search over all valid
values. -/
theorem derived_H_loses_nothing (a : Assignment) (hd : ∀ d ∈ letters a, d ≤ 9)
    (heq : NORTH a + EAST a + SOUTH a + WEST a = EARTH a) :
    a.H = derived_H a.T ∧
      ((letters a).Nodup →
        derived_H a.T ≠ a.T ∧ a.T ∈ valid_T_values ∧ a ∈ tested_candidates [a.T] ∧
          a ∈ found_solutions [a.T] ∧ a ∈ found_solutions valid_T_values) := by
  have hH : a.H ≤ 9 := hd _ (by simp [letters])
  have hT : a.T ≤ 9 := hd _ (by simp [letters])
  have hu := units_column a hH heq
  refine ⟨hu, fun hnd => ?_⟩
  have hsol : is_solution a := ⟨hd, hnd, heq⟩
  have hvalid := is_solution_T_valid a hsol
  have hfound : a ∈ found_solutions [a.T] :=
    (mem_found_solutions [a.T] (by
      intro T hTmem
      rw [List.mem_singleton] at hTmem
      rw [hTmem]
      exact hT) a).mpr ⟨List.mem_singleton.mpr rfl, hsol⟩
  have hne : derived_H a.T ≠ a.T := by
    have h1 : a.T ≠ a.H := by
      simp only [letters, List.nodup_cons, List.mem_cons, List.mem_singleton, not_or] at hnd
      exact hnd.2.2.2.1.1
    rw [← hu]
    exact fun h => h1 h.symm
  refine ⟨hne, hvalid, ?_, hfound, (mem_found_valid a).mpr hsol⟩
  rw [tested_candidates_eq]
  rw [found_solutions_eq] at hfound
  exact (List.mem_filter.mp hfound).1

theorem derived_H_loses_nothing_witness :
    (∀ d ∈ letters ⟨2, 5, 6, 1, 8, 7, 9, 4, 0, 3⟩, d ≤ 9) ∧
      NORTH ⟨2, 5, 6, 1, 8, 7, 9, 4, 0, 3⟩ + EAST ⟨2, 5, 6, 1, 8, 7, 9, 4, 0, 3⟩
          + SOUTH ⟨2, 5, 6, 1, 8, 7, 9, 4, 0, 3⟩ + WEST ⟨2, 5, 6, 1, 8, 7, 9, 4, 0, 3⟩
        = EARTH ⟨2, 5, 6, 1, 8, 7, 9, 4, 0, 3⟩ ∧
      ((⟨2, 5, 6, 1, 8, 7, 9, 4, 0, 3⟩ : Assignment).H
          = derived_H (⟨2, 5, 6, 1, 8, 7, 9, 4, 0, 3⟩ : Assignment).T ∧
        ((letters ⟨2, 5, 6, 1, 8, 7, 9, 4, 0, 3⟩).Nodup →
          derived_H (⟨2, 5, 6, 1, 8, 7, 9, 4, 0, 3⟩ : Assignment).T
              ≠ (⟨2, 5, 6, 1, 8, 7, 9, 4, 0, 3⟩ : Assignment).T ∧
            (⟨2, 5, 6, 1, 8, 7, 9, 4, 0, 3⟩ : Assignment).T ∈ valid_T_values ∧
            (⟨2, 5, 6, 1, 8, 7, 9, 4, 0, 3⟩ : Assignment)
              ∈ tested_candidates [(⟨2, 5, 6, 1, 8, 7, 9, 4, 0, 3⟩ : Assignment).T] ∧
            (⟨2, 5, 6, 1, 8, 7, 9, 4, 0, 3⟩ : Assignment)
              ∈ found_solutions [(⟨2, 5, 6, 1, 8, 7, 9, 4, 0, 3⟩ : Assignment).T] ∧
            (⟨2, 5, 6, 1, 8, 7, 9, 4, 0, 3⟩ : Assignment) ∈ found_solutions valid_T_values)) :=
  ⟨by decide, by decide,
    derived_H_loses_nothing ⟨2, 5, 6, 1, 8, 7, 9, 4, 0, 3⟩ (by decide) (by decide)⟩

/-- C17. Sequential index in a single-worker run: when one thread runs
`solve_range` over any list of `T` values from the counter at zero and an empty
collection, the labels in the collection are 1, 2, ..., n in collection order,
the entry at position `k` (counted from 0) carries the label `k + 1` and its
text starts with `Solution k+1:`, and the final counter equals the number of
entries; a run of the harness with one thread is exactly this, under every
schedule. -/
theorem sequential_labels (T_values schedule : List Nat) :
    (solve_range T_values ⟨0, []⟩).solutions.map SolutionRecord.index
        = List.range' 1 (solve_range T_values ⟨0, []⟩).solutions.length ∧
      (solve_range T_values ⟨0, []⟩).total_solutions
        = (solve_range T_values ⟨0, []⟩).solutions.length ∧
      (∀ k r, (solve_range T_values ⟨0, []⟩).solutions[k]? = some r →
        r.index = k + 1 ∧
          ∃ rest, render r = "Solution " ++ toString (k + 1) ++ ":\n" ++ rest) ∧
      run_threads 1 schedule ⟨0, []⟩ = some (solve_range valid_T_values ⟨0, []⟩) := by
  have hlen : (solve_range T_values ⟨0, []⟩).solutions.length
      = (found_solutions T_values).length := by
    rw [fresh_solutions, List.length_zipWith, List.length_range, Nat.min_self]
  refine ⟨?_, ?_, ?_, run_threads_one schedule ⟨0, []⟩⟩
  · rw [hlen, fresh_solutions, List.map_zipWith]
    apply List.ext_getElem
    · simp
    · intro i h1 h2
      simp
      omega
  · rw [hlen, solve_range_fresh_total]
  · intro k r hk
    have hidx : r.index = k + 1 := by
      rw [fresh_solutions] at hk
      rw [List.getElem?_eq_some] at hk
      obtain ⟨hlt, hget⟩ := hk
      rw [← hget]
      simp
    refine ⟨hidx, ?_⟩
    rw [← hidx]
    exact render_label r


/-! ### Sizes of the round-robin lists -/

theorem length_filter_range_eq_count (p : Nat → Prop) [DecidablePred p] (m : Nat) :
    ((List.range m).filter fun i => decide (p i)).length = Nat.count p m := by
  induction m with
  | zero => rfl
  | succ m ih =>
    rw [List.range_succ, List.filter_append, List.length_append, ih, Nat.count_succ]
    by_cases h : p m <;> simp [h]

theorem positions_length (n m j : Nat) (hn : 0 < n) (hj : j < n) :
    ((List.range m).filter fun i => decide (i % n = j)).length
      = m / n + if j < m % n then 1 else 0 := by
  have hcount := Nat.count_modEq_card m hn j
  rw [Nat.mod_eq_of_lt hj] at hcount
  rw [← hcount, ← length_filter_range_eq_count]
  congr 1
  apply List.filter_congr
  intro i _
  simp only [Nat.ModEq, Nat.mod_eq_of_lt hj]

theorem length_filterMap_getElem (vals : List Nat) (l : List Nat)
    (h : ∀ i ∈ l, i < vals.length) : (l.filterMap fun i => vals[i]?).length = l.length := by
  induction l with
  | nil => rfl
  | cons i rest ih =>
    have hi : i < vals.length := h i (List.mem_cons_self _ _)
    rw [List.filterMap_cons, List.getElem?_eq_getElem hi]
    simp only [List.length_cons]
    rw [ih (fun k hk => h k (List.mem_cons_of_mem _ hk))]

theorem ceil_div_of_rem_pos (m n : Nat) (hn : 0 < n) (hr : 0 < m % n) :
    (m + n - 1) / n = m / n + 1 := by
  have hlt : m % n < n := Nat.mod_lt _ hn
  have hm : m + n - 1 = (m % n - 1) + n * (m / n + 1) := by
    have h1 := Nat.div_add_mod m n
    rw [Nat.mul_succ]
    omega
  rw [hm, Nat.add_mul_div_left _ _ hn, Nat.div_eq_of_lt (by omega), Nat.zero_add]

theorem ceil_div_of_rem_zero (m n : Nat) (hn : 0 < n) (hr : m % n = 0) :
    (m + n - 1) / n = m / n := by
  have hm : m + n - 1 = (n - 1) + n * (m / n) := by
    have h1 := Nat.div_add_mod m n
    omega
  rw [hm, Nat.add_mul_div_left _ _ hn, Nat.div_eq_of_lt (by omega), Nat.zero_add]

theorem bucket_length (n : Nat) (vals : List Nat) (hn : 0 < n) (j : Nat) (hj : j < n) :
    (((List.range vals.length).filter fun i => decide (i % n = j)).filterMap
        fun i => vals[i]?).length
      = vals.length / n + if j < vals.length % n then 1 else 0 := by
  rw [length_filterMap_getElem, positions_length n vals.length j hn hj]
  intro i hi
  exact List.mem_range.mp (List.mem_filter.mp hi).1

/-- C11. Balanced round-robin: for every worker count `n ≥ 1` and every list of
`m` values, the partition succeeds with `n` lists; worker `j` receives exactly
the values at the positions `i < m` with `i mod n = j`, in increasing order of
position, which are `m / n` values plus one more when `j < m mod n`; so every
worker receives floor(m/n) or ceil(m/n) values and two workers' list sizes differ
by at most one. -/
theorem balanced_round_robin (n : Nat) (hn : 1 ≤ n) (vals : List Nat) :
    ∃ per_thread, T_values_per_thread n vals = some per_thread ∧
      per_thread.length = n ∧
      (∀ j, j < n →
        ((List.range vals.length).filter fun i => decide (i % n = j)).Pairwise (· < ·) ∧
        (∀ i, i ∈ (List.range vals.length).filter (fun i => decide (i % n = j)) ↔
          i < vals.length ∧ i % n = j) ∧
        per_thread[j]? = some
          (((List.range vals.length).filter fun i => decide (i % n = j)).filterMap
            fun i => vals[i]?) ∧
        ∃ b, per_thread[j]? = some b ∧
          b.length = vals.length / n + if j < vals.length % n then 1 else 0) ∧
      (∀ b ∈ per_thread,
        b.length = vals.length / n ∨ b.length = (vals.length + n - 1) / n) ∧
      ∀ b1 ∈ per_thread, ∀ b2 ∈ per_thread, b1.length ≤ b2.length + 1 := by
  have hsize : ∀ b ∈ (List.range n).map (fun j =>
      ((List.range vals.length).filter fun i => decide (i % n = j)).filterMap
        fun i => vals[i]?),
      ∃ j, j < n ∧ b.length = vals.length / n + if j < vals.length % n then 1 else 0 := by
    intro b hb
    rw [List.mem_map] at hb
    obtain ⟨j, hj, rfl⟩ := hb
    rw [List.mem_range] at hj
    exact ⟨j, hj, bucket_length n vals hn j hj⟩
  refine ⟨_, T_values_per_thread_eq n vals hn, by simp, ?_, ?_, ?_⟩
  · intro j hj
    have hget : ((List.range n).map fun j =>
        ((List.range vals.length).filter fun i => decide (i % n = j)).filterMap
          fun i => vals[i]?)[j]? = some
        (((List.range vals.length).filter fun i => decide (i % n = j)).filterMap
          fun i => vals[i]?) := by
      rw [List.getElem?_map, List.getElem?_range hj]
      rfl
    refine ⟨(List.pairwise_lt_range _).filter _, ?_, hget, _, hget, bucket_length n vals hn j hj⟩
    intro i
    rw [List.mem_filter, List.mem_range, decide_eq_true_eq]
  · intro b hb
    obtain ⟨j, -, hlen⟩ := hsize b hb
    by_cases hlt : j < vals.length % n
    · right
      rw [hlen, if_pos hlt, ceil_div_of_rem_pos _ _ hn (by omega)]
    · left
      rw [hlen, if_neg hlt, Nat.add_zero]
  · intro b1 hb1 b2 hb2
    obtain ⟨j1, -, h1⟩ := hsize b1 hb1
    obtain ⟨j2, -, h2⟩ := hsize b2 hb2
    rw [h1, h2]
    split <;> split <;> omega

theorem balanced_round_robin_witness :
    1 ≤ 4 ∧
      ∃ per_thread, T_values_per_thread 4 valid_T_values = some per_thread ∧
        per_thread.length = 4 ∧
        (∀ j, j < 4 →
          ((List.range valid_T_values.length).filter
              fun i => decide (i % 4 = j)).Pairwise (· < ·) ∧
          (∀ i, i ∈ (List.range valid_T_values.length).filter (fun i => decide (i % 4 = j)) ↔
            i < valid_T_values.length ∧ i % 4 = j) ∧
          per_thread[j]? = some
            (((List.range valid_T_values.length).filter fun i => decide (i % 4 = j)).filterMap
              fun i => valid_T_values[i]?) ∧
          ∃ b, per_thread[j]? = some b ∧
            b.length = valid_T_values.length / 4
              + if j < valid_T_values.length % 4 then 1 else 0) ∧
        (∀ b ∈ per_thread,
          b.length = valid_T_values.length / 4 ∨
            b.length = (valid_T_values.length + 4 - 1) / 4) ∧
        ∀ b1 ∈ per_thread, ∀ b2 ∈ per_thread, b1.length ≤ b2.length + 1 :=
  ⟨by decide, balanced_round_robin 4 (by decide) valid_T_values⟩


/-! ### Machine integers -/

theorem shift_lt (d : Nat) (h : d ≤ 9) : 1 <<< d < 2 ^ 10 := by
  rw [Nat.one_shiftLeft]
  exact Nat.pow_lt_pow_right (by decide) (by omega)

theorem tested_letters_le (T_values : List Nat) (hT : ∀ T ∈ T_values, T ≤ 9) (a : Assignment)
    (ha : a ∈ tested_candidates T_values) : ∀ d ∈ letters a, d ≤ 9 := by
  rw [tested_candidates_eq, mem_candidates] at ha
  obtain ⟨hmem, hH, -, hN, hE, hS, hW, hO, hR, hA, hU⟩ := ha
  have hT9 := hT _ hmem
  have hH9 : a.H ≤ 9 := by rw [hH]; unfold derived_H; omega
  intro d hd
  simp only [letters, List.mem_cons, List.mem_singleton, List.not_mem_nil, or_false] at hd
  omega

theorem letters_bounds (a : Assignment) (hd : ∀ d ∈ letters a, d ≤ 9) :
    a.N ≤ 9 ∧ a.O ≤ 9 ∧ a.R ≤ 9 ∧ a.T ≤ 9 ∧ a.H ≤ 9 ∧ a.E ≤ 9 ∧ a.A ≤ 9 ∧ a.S ≤ 9 ∧
      a.W ≤ 9 ∧ a.U ≤ 9 := by
  simp only [letters, List.mem_cons, List.mem_singleton, List.not_mem_nil, or_false,
    forall_eq_or_imp, forall_eq] at hd
  exact hd

theorem used_masks_lt (a : Assignment) (hd : ∀ d ∈ letters a, d ≤ 9) :
    ∀ m ∈ used_masks a, m < 1024 := by
  obtain ⟨hN, hO, hR, hT, hH, hE, hA, hS, hW, hU⟩ := letters_bounds a hd
  have h0 : (1 <<< a.T) ||| (1 <<< a.H) < 2 ^ 10 :=
    Nat.or_lt_two_pow (shift_lt _ hT) (shift_lt _ hH)
  have h1 := Nat.or_lt_two_pow h0 (shift_lt _ hN)
  have h2 := Nat.or_lt_two_pow h1 (shift_lt _ hE)
  have h3 := Nat.or_lt_two_pow h2 (shift_lt _ hS)
  have h4 := Nat.or_lt_two_pow h3 (shift_lt _ hW)
  have h5 := Nat.or_lt_two_pow h4 (shift_lt _ hO)
  have h6 := Nat.or_lt_two_pow h5 (shift_lt _ hR)
  have h7 := Nat.or_lt_two_pow h6 (shift_lt _ hA)
  intro m hm
  simp only [used_masks, List.mem_cons, List.mem_singleton, List.not_mem_nil, or_false] at hm
  rcases hm with h | h | h | h | h | h | h | h <;> rw [h] <;> assumption

theorem wrap_int32_id (x : Int) (h1 : -2147483648 ≤ x) (h2 : x < 2147483648) :
    wrap_int32 x = x := by
  unfold wrap_int32
  omega

theorem int32_agrees (a : Assignment) (hd : ∀ d ∈ letters a, d ≤ 9) :
    NORTH_int32 a = NORTH a ∧ EAST_int32 a = EAST a ∧ SOUTH_int32 a = SOUTH a ∧
      WEST_int32 a = WEST a ∧ EARTH_int32 a = EARTH a ∧
      equation_holds_int32 a = equation_holds a := by
  obtain ⟨hN, hO, hR, hT, hH, hE, hA, hS, hW, hU⟩ := letters_bounds a hd
  have h1 : NORTH_int32 a = NORTH a := by
    simp (disch := omega) only [NORTH_int32, NORTH, wrap_int32_id]
    omega
  have h2 : EAST_int32 a = EAST a := by
    simp (disch := omega) only [EAST_int32, EAST, wrap_int32_id]
    omega
  have h3 : SOUTH_int32 a = SOUTH a := by
    simp (disch := omega) only [SOUTH_int32, SOUTH, wrap_int32_id]
    omega
  have h4 : WEST_int32 a = WEST a := by
    simp (disch := omega) only [WEST_int32, WEST, wrap_int32_id]
    omega
  have h5 : EARTH_int32 a = EARTH a := by
    simp (disch := omega) only [EARTH_int32, EARTH, wrap_int32_id]
    omega
  refine ⟨h1, h2, h3, h4, h5, ?_⟩
  have b1 : NORTH a ≤ 99999 := by simp only [NORTH]; omega
  have b2 : EAST a ≤ 9999 := by simp only [EAST]; omega
  have b3 : SOUTH a ≤ 99999 := by simp only [SOUTH]; omega
  have b4 : WEST a ≤ 9999 := by simp only [WEST]; omega
  have hsum : wrap_int32 (wrap_int32 (wrap_int32 (NORTH_int32 a + EAST_int32 a) + SOUTH_int32 a)
      + WEST_int32 a) = ((NORTH a + EAST a + SOUTH a + WEST a : Nat) : Int) := by
    rw [h1, h2, h3, h4]
    simp (disch := omega) only [wrap_int32_id]
    omega
  unfold equation_holds_int32 equation_holds
  rw [hsum, h5]
  rw [Bool.eq_iff_iff]
  simp only [beq_iff_eq, Nat.cast_inj]

/-- C18. No overflow and well-defined shifts: for `T` values in 0..9, every
shift amount used by `solve_range`, namely `T`, its derived `H` and the loop
digits, lies in 0..9, so every `1 << d` and every used-digit bitmask is below
1024; for every binding that reaches the equation test every word value is at
most 99999 and the four-word sum is below 2^31; hence the word values and the
equation test computed in 32-bit `int` agree with those over unbounded
integers. -/
theorem no_overflow (T_values : List Nat) (hT : ∀ T ∈ T_values, T ≤ 9) :
    (∀ d ∈ List.range 10, d ≤ 9 ∧ 1 <<< d < 1024) ∧
      (∀ T ∈ T_values,
        T ≤ 9 ∧ derived_H T ≤ 9 ∧ 1 <<< T < 1024 ∧ 1 <<< derived_H T < 1024 ∧
          (1 <<< T) ||| (1 <<< derived_H T) < 1024) ∧
      ∀ a ∈ tested_candidates T_values,
        (∀ d ∈ letters a, d ≤ 9 ∧ 1 <<< d < 1024) ∧
          (∀ m ∈ used_masks a, m < 1024) ∧
          NORTH a ≤ 99999 ∧ EAST a ≤ 99999 ∧ SOUTH a ≤ 99999 ∧ WEST a ≤ 99999 ∧
          EARTH a ≤ 99999 ∧
          NORTH a + EAST a + SOUTH a + WEST a < 2 ^ 31 ∧
          NORTH_int32 a = NORTH a ∧ EAST_int32 a = EAST a ∧ SOUTH_int32 a = SOUTH a ∧
          WEST_int32 a = WEST a ∧ EARTH_int32 a = EARTH a ∧
          equation_holds_int32 a = equation_holds a := by
  refine ⟨?_, ?_, ?_⟩
  · intro d hd
    have h9 : d ≤ 9 := by
      rw [List.mem_range] at hd
      omega
    exact ⟨h9, shift_lt d h9⟩
  · intro T hmem
    have h9 := hT T hmem
    have hH : derived_H T ≤ 9 := by unfold derived_H; omega
    exact ⟨h9, hH, shift_lt T h9, shift_lt _ hH,
      Nat.or_lt_two_pow (shift_lt T h9) (shift_lt _ hH)⟩
  · intro a ha
    have hd := tested_letters_le T_values hT a ha
    obtain ⟨hN, hO, hR, hT9, hH, hE, hA, hS, hW, hU⟩ := letters_bounds a hd
    obtain ⟨i1, i2, i3, i4, i5, i6⟩ := int32_agrees a hd
    have b1 : NORTH a ≤ 99999 := by simp only [NORTH]; omega
    have b2 : EAST a ≤ 99999 := by simp only [EAST]; omega
    have b3 : SOUTH a ≤ 99999 := by simp only [SOUTH]; omega
    have b4 : WEST a ≤ 99999 := by simp only [WEST]; omega
    have b5 : EARTH a ≤ 99999 := by simp only [EARTH]; omega
    refine ⟨fun d hmem => ⟨hd d hmem, shift_lt d (hd d hmem)⟩, used_masks_lt a hd,
      b1, b2, b3, b4, b5, ?_, i1, i2, i3, i4, i5, i6⟩
    have h31 : (399996 : Nat) < 2 ^ 31 := by decide
    omega

theorem no_overflow_witness :
    (∀ T ∈ [1, 5], T ≤ 9) ∧
      ((∀ d ∈ List.range 10, d ≤ 9 ∧ 1 <<< d < 1024) ∧
        (∀ T ∈ [1, 5],
          T ≤ 9 ∧ derived_H T ≤ 9 ∧ 1 <<< T < 1024 ∧ 1 <<< derived_H T < 1024 ∧
            (1 <<< T) ||| (1 <<< derived_H T) < 1024) ∧
        ∀ a ∈ tested_candidates [1, 5],
          (∀ d ∈ letters a, d ≤ 9 ∧ 1 <<< d < 1024) ∧
            (∀ m ∈ used_masks a, m < 1024) ∧
            NORTH a ≤ 99999 ∧ EAST a ≤ 99999 ∧ SOUTH a ≤ 99999 ∧ WEST a ≤ 99999 ∧
            EARTH a ≤ 99999 ∧
            NORTH a + EAST a + SOUTH a + WEST a < 2 ^ 31 ∧
            NORTH_int32 a = NORTH a ∧ EAST_int32 a = EAST a ∧ SOUTH_int32 a = SOUTH a ∧
            WEST_int32 a = WEST a ∧ EARTH_int32 a = EARTH a ∧
            equation_holds_int32 a = equation_holds a) :=
  ⟨by decide, no_overflow [1, 5] (by decide)⟩


/-! ### Labels when two threads interleave -/

/-- Two threads that both increment the counter before either reads it back
label their first solutions alike. -/
theorem race_on_label (x y : Assignment) (xs ys : List Assignment) :
    run_schedule ⟨⟨0, []⟩, [⟨x :: xs, Phase.searching⟩, ⟨y :: ys, Phase.searching⟩]⟩ [0, 1, 0, 1]
      = ⟨⟨2, []⟩, [⟨xs, Phase.labelled ⟨2, x⟩⟩, ⟨ys, Phase.labelled ⟨2, y⟩⟩]⟩ := by
  rfl

theorem record_all_index_gt (l : List Assignment) (st : Shared) :
    ∀ r ∈ (l.foldl (fun st a => record_solution a st) st).solutions,
      r ∈ st.solutions ∨ st.total_solutions < r.index := by
  induction l generalizing st with
  | nil =>
    intro r hr
    exact Or.inl hr
  | cons a rest ih =>
    intro r hr
    rw [List.foldl_cons] at hr
    rcases ih (record_solution a st) r hr with h | h
    · simp only [record_solution, List.mem_append, List.mem_singleton] at h
      rcases h with h | h
      · exact Or.inl h
      · right
        rw [h]
        exact Nat.lt_succ_self _
    · right
      simp only [record_solution] at h
      omega

theorem record_all_subset (l : List Assignment) (st : Shared) :
    ∀ r ∈ st.solutions, r ∈ (l.foldl (fun st a => record_solution a st) st).solutions := by
  intro r hr
  rw [record_all_solutions]
  exact List.mem_append_left _ hr

/-- C19, as the code has it: with two threads, if both run `total_solutions++`
(line 75) before either streams `total_solutions` (line 79), both read 2; the
run ends with two different solutions whose texts both start with
`Solution 2:`, no entry labelled 1, so the labels are not pairwise distinct,
although the counter ends at the full count of the single-thread run. -/
theorem duplicate_labels_two_threads :
    ∃ fin r1 r2, run_threads 2 [0, 1, 0, 1] ⟨0, []⟩ = some fin ∧
      r1 ∈ fin.solutions ∧ r2 ∈ fin.solutions ∧ r1.asg ≠ r2.asg ∧
      r1.index = 2 ∧ r2.index = 2 ∧
      (∃ rest1 rest2, render r1 = "Solution " ++ toString 2 ++ ":\n" ++ rest1 ∧
        render r2 = "Solution " ++ toString 2 ++ ":\n" ++ rest2) ∧
      (∀ r ∈ fin.solutions, r.index ≠ 1) ∧
      ¬ (fin.solutions.map SolutionRecord.index).Nodup ∧
      fin.total_solutions = (solve_range valid_T_values ⟨0, []⟩).total_solutions := by
  have hpart : T_values_per_thread 2 valid_T_values = some [[1, 3, 5, 7, 9], [2, 4, 6, 8]] := by
    decide
  have hodd : (⟨2, 5, 6, 1, 8, 7, 9, 4, 0, 3⟩ : Assignment) ∈ found_solutions [1, 3, 5, 7, 9] :=
    (mem_found_solutions _ (by decide) _).mpr ⟨by decide, by unfold is_solution; decide⟩
  have heven : (⟨2, 0, 5, 6, 8, 3, 9, 1, 4, 7⟩ : Assignment) ∈ found_solutions [2, 4, 6, 8] :=
    (mem_found_solutions _ (by decide) _).mpr ⟨by decide, by unfold is_solution; decide⟩
  obtain ⟨x, xs, hx⟩ := List.exists_cons_of_ne_nil (List.ne_nil_of_mem hodd)
  obtain ⟨y, ys, hy⟩ := List.exists_cons_of_ne_nil (List.ne_nil_of_mem heven)
  have hxT : x.T ∈ [1, 3, 5, 7, 9] :=
    ((mem_found_solutions [1, 3, 5, 7, 9] (by decide) x).mp
      (by rw [hx]; exact List.mem_cons_self _ _)).1
  have hyT : y.T ∈ [2, 4, 6, 8] :=
    ((mem_found_solutions [2, 4, 6, 8] (by decide) y).mp
      (by rw [hy]; exact List.mem_cons_self _ _)).1
  have hxy : x ≠ y := by
    intro h
    rw [h] at hxT
    simp only [List.mem_cons, List.mem_singleton, List.not_mem_nil, or_false] at hxT hyT
    omega
  have hrun : run_threads 2 [0, 1, 0, 1] ⟨0, []⟩
      = some (join_threads
          ⟨⟨2, []⟩, [⟨xs, Phase.labelled ⟨2, x⟩⟩, ⟨ys, Phase.labelled ⟨2, y⟩⟩]⟩) := by
    unfold run_threads
    rw [hpart]
    simp only [spawn_threads, List.map_cons, List.map_nil]
    rw [hx, hy, race_on_label]
  obtain ⟨fin, hfin, htotal, -⟩ := run_threads_fresh 2 (by decide) [0, 1, 0, 1]
  have hfin_eq : fin = (ys.foldl (fun st a => record_solution a st)
      { total_solutions :=
          (xs.foldl (fun st a => record_solution a st) ⟨2, [⟨2, x⟩]⟩).total_solutions,
        solutions :=
          (xs.foldl (fun st a => record_solution a st) ⟨2, [⟨2, x⟩]⟩).solutions
            ++ [⟨2, y⟩] }) := by
    rw [hrun] at hfin
    exact (Option.some.inj hfin).symm
  have hmem1 : (⟨2, x⟩ : SolutionRecord) ∈ fin.solutions := by
    rw [hfin_eq]
    apply record_all_subset
    exact List.mem_append_left _
      (record_all_subset xs ⟨2, [⟨2, x⟩]⟩ _ (List.mem_singleton.mpr rfl))
  have hmem2 : (⟨2, y⟩ : SolutionRecord) ∈ fin.solutions := by
    rw [hfin_eq]
    apply record_all_subset
    exact List.mem_append_right _ (List.mem_singleton.mpr rfl)
  have hge : ∀ r ∈ fin.solutions, 2 ≤ r.index := by
    intro r hr
    rw [hfin_eq] at hr
    rcases record_all_index_gt ys _ r hr with h | h
    · rcases List.mem_append.mp h with h | h
      · rcases record_all_index_gt xs _ r h with h | h
        · rw [List.mem_singleton.mp h]
        · exact Nat.le_of_lt h
      · rw [List.mem_singleton.mp h]
    · simp only [record_all_total] at h
      omega
  refine ⟨fin, ⟨2, x⟩, ⟨2, y⟩, hfin, hmem1, hmem2, hxy, rfl, rfl,
    ⟨(render_label ⟨2, x⟩).choose, (render_label ⟨2, y⟩).choose,
      (render_label ⟨2, x⟩).choose_spec, (render_label ⟨2, y⟩).choose_spec⟩, ?_, ?_, ?_⟩
  · intro r hr h1
    have := hge r hr
    omega
  · intro hnodup
    have hinj := List.inj_on_of_nodup_map hnodup hmem1 hmem2 rfl
    exact hxy (congrArg SolutionRecord.asg hinj)
  · rw [htotal, solve_range_fresh_total]


/-! ### The candidates of one `T`: order and number -/

theorem pairwise_ite_nil {α : Type} (R : α → α → Prop) (c : Prop) [Decidable c] (l : List α)
    (h : ¬ c → l.Pairwise R) : (if c then [] else l).Pairwise R := by
  split
  · exact List.Pairwise.nil
  · exact h ‹_›

/-- The candidates of one `T` come in strictly increasing lexicographic order of
(N, E, S, W, O, R, A, U). -/
theorem candidates_sorted (T : Nat) :
    (candidates [T]).Pairwise fun a b => List.Lex (· < ·) (search_key a) (search_key b) := by
  unfold candidates
  simp only [List.flatMap_cons, List.flatMap_nil, List.append_nil]
  refine pairwise_ite_nil _ _ _ (fun _ => ?_)
  refine List.pairwise_flatMap.mpr ⟨?_, ?_⟩
  rotate_left
  · refine (List.pairwise_lt_range 10).imp ?_
    intro d1 d2 hlt a ha b hb
    simp only [mem_ite_nil, List.mem_flatMap, List.mem_singleton] at ha hb
    obtain ⟨-, _, -, -, _, -, -, _, -, -, _, -, -, _, -, -, _, -, -, _, -, -, rfl⟩ := ha
    obtain ⟨-, _, -, -, _, -, -, _, -, -, _, -, -, _, -, -, _, -, -, _, -, -, rfl⟩ := hb
    exact List.Lex.rel hlt
  intro N _
  refine pairwise_ite_nil _ _ _ (fun _ => ?_)
  refine List.pairwise_flatMap.mpr ⟨?_, ?_⟩
  rotate_left
  · refine (List.pairwise_lt_range 10).imp ?_
    intro d1 d2 hlt a ha b hb
    simp only [mem_ite_nil, List.mem_flatMap, List.mem_singleton] at ha hb
    obtain ⟨-, _, -, -, _, -, -, _, -, -, _, -, -, _, -, -, _, -, -, rfl⟩ := ha
    obtain ⟨-, _, -, -, _, -, -, _, -, -, _, -, -, _, -, -, _, -, -, rfl⟩ := hb
    exact List.Lex.cons (List.Lex.rel hlt)
  intro E _
  refine pairwise_ite_nil _ _ _ (fun _ => ?_)
  refine List.pairwise_flatMap.mpr ⟨?_, ?_⟩
  rotate_left
  · refine (List.pairwise_lt_range 10).imp ?_
    intro d1 d2 hlt a ha b hb
    simp only [mem_ite_nil, List.mem_flatMap, List.mem_singleton] at ha hb
    obtain ⟨-, _, -, -, _, -, -, _, -, -, _, -, -, _, -, -, rfl⟩ := ha
    obtain ⟨-, _, -, -, _, -, -, _, -, -, _, -, -, _, -, -, rfl⟩ := hb
    exact List.Lex.cons (List.Lex.cons (List.Lex.rel hlt))
  intro S _
  refine pairwise_ite_nil _ _ _ (fun _ => ?_)
  refine List.pairwise_flatMap.mpr ⟨?_, ?_⟩
  rotate_left
  · refine (List.pairwise_lt_range 10).imp ?_
    intro d1 d2 hlt a ha b hb
    simp only [mem_ite_nil, List.mem_flatMap, List.mem_singleton] at ha hb
    obtain ⟨-, _, -, -, _, -, -, _, -, -, _, -, -, rfl⟩ := ha
    obtain ⟨-, _, -, -, _, -, -, _, -, -, _, -, -, rfl⟩ := hb
    exact List.Lex.cons (List.Lex.cons (List.Lex.cons (List.Lex.rel hlt)))
  intro W _
  refine pairwise_ite_nil _ _ _ (fun _ => ?_)
  refine List.pairwise_flatMap.mpr ⟨?_, ?_⟩
  rotate_left
  · refine (List.pairwise_lt_range 10).imp ?_
    intro d1 d2 hlt a ha b hb
    simp only [mem_ite_nil, List.mem_flatMap, List.mem_singleton] at ha hb
    obtain ⟨-, _, -, -, _, -, -, _, -, -, rfl⟩ := ha
    obtain ⟨-, _, -, -, _, -, -, _, -, -, rfl⟩ := hb
    exact List.Lex.cons (List.Lex.cons (List.Lex.cons (List.Lex.cons (List.Lex.rel hlt))))
  intro O _
  refine pairwise_ite_nil _ _ _ (fun _ => ?_)
  refine List.pairwise_flatMap.mpr ⟨?_, ?_⟩
  rotate_left
  · refine (List.pairwise_lt_range 10).imp ?_
    intro d1 d2 hlt a ha b hb
    simp only [mem_ite_nil, List.mem_flatMap, List.mem_singleton] at ha hb
    obtain ⟨-, _, -, -, _, -, -, rfl⟩ := ha
    obtain ⟨-, _, -, -, _, -, -, rfl⟩ := hb
    exact List.Lex.cons (List.Lex.cons (List.Lex.cons (List.Lex.cons (List.Lex.cons (List.Lex.rel hlt)))))
  intro R _
  refine pairwise_ite_nil _ _ _ (fun _ => ?_)
  refine List.pairwise_flatMap.mpr ⟨?_, ?_⟩
  rotate_left
  · refine (List.pairwise_lt_range 10).imp ?_
    intro d1 d2 hlt a ha b hb
    simp only [mem_ite_nil, List.mem_flatMap, List.mem_singleton] at ha hb
    obtain ⟨-, _, -, -, rfl⟩ := ha
    obtain ⟨-, _, -, -, rfl⟩ := hb
    exact List.Lex.cons (List.Lex.cons (List.Lex.cons (List.Lex.cons (List.Lex.cons (List.Lex.cons (List.Lex.rel hlt))))))
  intro A _
  refine pairwise_ite_nil _ _ _ (fun _ => ?_)
  refine List.pairwise_flatMap.mpr ⟨?_, ?_⟩
  rotate_left
  · refine (List.pairwise_lt_range 10).imp ?_
    intro d1 d2 hlt a ha b hb
    simp only [mem_ite_nil, List.mem_flatMap, List.mem_singleton] at ha hb
    obtain ⟨-, rfl⟩ := ha
    obtain ⟨-, rfl⟩ := hb
    exact List.Lex.cons (List.Lex.cons (List.Lex.cons (List.Lex.cons (List.Lex.cons (List.Lex.cons (List.Lex.cons (List.Lex.rel hlt)))))))
  intro U _
  refine pairwise_ite_nil _ _ _ (fun _ => ?_)
  exact List.pairwise_singleton _ _

theorem count_free_digits (u : List Nat) (hu : u.Nodup) (hlt : ∀ x ∈ u, x < 10) :
    ((List.range 10).filter fun d => decide (d ∉ u)).length = 10 - u.length := by
  have hnd : ((List.range 10).filter fun d => decide (d ∉ u)).Nodup :=
    (List.nodup_range 10).filter _
  have hset : ((List.range 10).filter fun d => decide (d ∉ u)).toFinset
      = Finset.range 10 \ u.toFinset := by
    ext d
    simp
  have hsub : u.toFinset ⊆ Finset.range 10 := by
    intro d hd
    rw [List.mem_toFinset] at hd
    exact Finset.mem_range.mpr (hlt d hd)
  rw [← List.toFinset_card_of_nodup hnd, hset, Finset.card_sdiff hsub, Finset.card_range,
    List.toFinset_card_of_nodup hu]

theorem length_flatMap_guard {β : Type} (l : List Nat) (p : Nat → Prop) [DecidablePred p]
    (f : Nat → List β) (c : Nat) (hf : ∀ d ∈ l, ¬ p d → (f d).length = c) :
    (l.flatMap fun d => if p d then [] else f d).length
      = (l.filter fun d => decide (¬ p d)).length * c := by
  induction l with
  | nil => simp
  | cons d rest ih =>
    have hrest := ih (fun x hx => hf x (List.mem_cons_of_mem _ hx))
    rw [List.flatMap_cons, List.length_append, hrest, List.filter_cons]
    by_cases hp : p d
    · simp [hp]
    · have hd := hf d (List.mem_cons_self _ _) hp
      simp only [hp, if_false, not_false_eq_true, decide_True, if_true, List.length_cons, hd]
      rw [Nat.succ_mul]
      omega

/-- One loop level: with the `k` digits of `u` used, `10 - k` digits pass the
bitmask test, each opening the same number of candidates. -/
theorem level_count {β : Type} (u : List Nat) (k c total : Nat) (hu : u.Nodup)
    (hlt : ∀ x ∈ u, x < 10) (hk : u.length = k) (htotal : (10 - k) * c = total)
    (p : Nat → Prop) [DecidablePred p] (hp : ∀ d, p d ↔ d ∈ u) (f : Nat → List β)
    (hf : ∀ d, d < 10 → d ∉ u → (f d).length = c) :
    ((List.range 10).flatMap fun d => if p d then [] else f d).length = total := by
  rw [length_flatMap_guard (List.range 10) p f c
    (fun d hd hpd => hf d (List.mem_range.mp hd) (fun hmem => hpd ((hp d).mpr hmem)))]
  rw [← htotal, ← hk, ← count_free_digits u hu hlt]
  congr 2
  apply List.filter_congr
  intro d _
  exact decide_eq_decide.mpr (not_congr (hp d))

theorem mask_step (m v : Nat) (u : List Nat) (h : ∀ d, (m &&& (1 <<< d) ≠ 0) ↔ d ∈ u) :
    ∀ d, ((m ||| (1 <<< v)) &&& (1 <<< d) ≠ 0) ↔ d ∈ v :: u := by
  intro d
  rw [mask_test, mask_add, Bool.or_eq_true, ← mask_test, h d, decide_eq_true_eq, List.mem_cons]
  constructor
  · rintro (h1 | h1)
    · exact Or.inr h1
    · exact Or.inl h1.symm
  · rintro (h1 | h1)
    · exact Or.inr h1.symm
    · exact Or.inl h1

/-- For a searched `T` in 0..9 the equation test is reached by 8! bindings. -/
theorem length_candidates (T : Nat) (hT : T ≤ 9) (hH : (10 - 2 * T % 10) % 10 ≠ T) :
    (candidates [T]).length = 40320 := by
  have hu : [(10 - 2 * T % 10) % 10, T].Nodup := by
    simp only [List.nodup_cons, List.mem_singleton, List.not_mem_nil, not_false_eq_true,
      List.nodup_nil, and_true]
    exact hH
  have hlt : ∀ x ∈ [(10 - 2 * T % 10) % 10, T], x < 10 := by
    intro x hx
    simp only [List.mem_cons, List.mem_singleton, List.not_mem_nil, or_false] at hx
    omega
  unfold candidates
  simp only [List.flatMap_cons, List.flatMap_nil, List.append_nil]
  rw [if_neg hH]
  have hp : ∀ d, (((1 <<< T) ||| (1 <<< ((10 - 2 * T % 10) % 10))) &&& (1 <<< d) ≠ 0)
      ↔ d ∈ [(10 - 2 * T % 10) % 10, T] := by
    intro d
    simp only [mask_test, mask_add, mask_one, Bool.or_eq_true, decide_eq_true_eq,
      List.mem_cons, List.mem_singleton, List.not_mem_nil, or_false]
    omega
  refine level_count [(10 - 2 * T % 10) % 10, T] 2 5040 40320 hu hlt rfl (by decide) _ hp _ ?_
  intro N hN hnN
  have huN := List.nodup_cons.mpr ⟨hnN, hu⟩
  have hltN : ∀ x ∈ N :: [(10 - 2 * T % 10) % 10, T], x < 10 := by
    intro x hx
    rcases List.mem_cons.mp hx with h | h
    · rw [h]
      exact hN
    · exact hlt x h
  have hpN := mask_step _ N _ hp
  refine level_count (N :: [(10 - 2 * T % 10) % 10, T]) 3 720 5040 huN hltN rfl (by decide) _ hpN _ ?_
  intro E hE hnE
  have huE := List.nodup_cons.mpr ⟨hnE, huN⟩
  have hltE : ∀ x ∈ E :: (N :: [(10 - 2 * T % 10) % 10, T]), x < 10 := by
    intro x hx
    rcases List.mem_cons.mp hx with h | h
    · rw [h]
      exact hE
    · exact hltN x h
  have hpE := mask_step _ E _ hpN
  refine level_count (E :: (N :: [(10 - 2 * T % 10) % 10, T])) 4 120 720 huE hltE rfl (by decide) _ hpE _ ?_
  intro S hS hnS
  have huS := List.nodup_cons.mpr ⟨hnS, huE⟩
  have hltS : ∀ x ∈ S :: (E :: (N :: [(10 - 2 * T % 10) % 10, T])), x < 10 := by
    intro x hx
    rcases List.mem_cons.mp hx with h | h
    · rw [h]
      exact hS
    · exact hltE x h
  have hpS := mask_step _ S _ hpE
  refine level_count (S :: (E :: (N :: [(10 - 2 * T % 10) % 10, T]))) 5 24 120 huS hltS rfl (by decide) _ hpS _ ?_
  intro W hW hnW
  have huW := List.nodup_cons.mpr ⟨hnW, huS⟩
  have hltW : ∀ x ∈ W :: (S :: (E :: (N :: [(10 - 2 * T % 10) % 10, T]))), x < 10 := by
    intro x hx
    rcases List.mem_cons.mp hx with h | h
    · rw [h]
      exact hW
    · exact hltS x h
  have hpW := mask_step _ W _ hpS
  refine level_count (W :: (S :: (E :: (N :: [(10 - 2 * T % 10) % 10, T])))) 6 6 24 huW hltW rfl (by decide) _ hpW _ ?_
  intro O hO hnO
  have huO := List.nodup_cons.mpr ⟨hnO, huW⟩
  have hltO : ∀ x ∈ O :: (W :: (S :: (E :: (N :: [(10 - 2 * T % 10) % 10, T])))), x < 10 := by
    intro x hx
    rcases List.mem_cons.mp hx with h | h
    · rw [h]
      exact hO
    · exact hltW x h
  have hpO := mask_step _ O _ hpW
  refine level_count (O :: (W :: (S :: (E :: (N :: [(10 - 2 * T % 10) % 10, T]))))) 7 2 6 huO hltO rfl (by decide) _ hpO _ ?_
  intro R hR hnR
  have huR := List.nodup_cons.mpr ⟨hnR, huO⟩
  have hltR : ∀ x ∈ R :: (O :: (W :: (S :: (E :: (N :: [(10 - 2 * T % 10) % 10, T]))))), x < 10 := by
    intro x hx
    rcases List.mem_cons.mp hx with h | h
    · rw [h]
      exact hR
    · exact hltO x h
  have hpR := mask_step _ R _ hpO
  refine level_count (R :: (O :: (W :: (S :: (E :: (N :: [(10 - 2 * T % 10) % 10, T])))))) 8 1 2 huR hltR rfl (by decide) _ hpR _ ?_
  intro A hA hnA
  have huA := List.nodup_cons.mpr ⟨hnA, huR⟩
  have hltA : ∀ x ∈ A :: (R :: (O :: (W :: (S :: (E :: (N :: [(10 - 2 * T % 10) % 10, T])))))), x < 10 := by
    intro x hx
    rcases List.mem_cons.mp hx with h | h
    · rw [h]
      exact hA
    · exact hltR x h
  have hpA := mask_step _ A _ hpR
  refine level_count (A :: (R :: (O :: (W :: (S :: (E :: (N :: [(10 - 2 * T % 10) % 10, T]))))))) 9 1 1 huA hltA rfl (by decide) _ hpA _ ?_
  intro U hU hnU
  rfl

/-- C15. Exhaustive enumeration without arithmetic pruning: for every `T` in
0..9 whose derived `H` differs from `T`, the code of lines 65-86 runs exactly at
the logged bindings, one after the other; a binding is logged exactly when its
`T` and `H` are the given ones, its eight free letters are digits in 0..9 and
all ten letters are pairwise distinct (nothing but digit reuse cuts a
candidate off); no binding is logged twice; there are 8! = 40320 of them; and
they come in strictly increasing lexicographic order of (N,E,S,W,O,R,A,U). -/
theorem exhaustive_enumeration (T : Nat) (hT : T ≤ 9) (hH : derived_H T ≠ T) :
    (∀ st, solve_range [T] st
        = (tested_candidates [T]).foldl (fun st a => test_candidate a st) st) ∧
      (∀ a, a ∈ tested_candidates [T] ↔
        a.T = T ∧ a.H = derived_H T ∧ (∀ d ∈ search_key a, d ≤ 9) ∧ (letters a).Nodup) ∧
      (tested_candidates [T]).Nodup ∧
      (tested_candidates [T]).length = 40320 ∧
      Nat.factorial 8 = 40320 ∧
      (tested_candidates [T]).Pairwise
        (fun a b => List.Lex (· < ·) (search_key a) (search_key b)) := by
  refine ⟨?_, ?_, ?_, ?_, by decide, ?_⟩
  · intro st
    rw [tested_candidates_eq]
    exact search_loops_eq_foldl test_candidate [T] st
  · intro a
    rw [tested_candidates_eq, mem_candidates, List.mem_singleton]
    constructor
    · rintro ⟨h1, h2, hnd, hN, hE, hS, hW, hO, hR, hA, hU⟩
      refine ⟨h1, by rw [h2, h1], ?_, hnd⟩
      intro d hd
      simp only [search_key, List.mem_cons, List.mem_singleton, List.not_mem_nil,
        or_false] at hd
      omega
    · rintro ⟨h1, h2, hkey, hnd⟩
      simp only [search_key, List.mem_cons, List.mem_singleton, List.not_mem_nil, or_false,
        forall_eq_or_imp, forall_eq] at hkey
      obtain ⟨hN, hE, hS, hW, hO, hR, hA, hU⟩ := hkey
      exact ⟨h1, by rw [h2, h1], hnd, by omega, by omega, by omega, by omega, by omega,
        by omega, by omega, by omega⟩
  · rw [tested_candidates_eq]
    exact nodup_candidates [T] (List.nodup_singleton T)
  · rw [tested_candidates_eq]
    exact length_candidates T hT hH
  · rw [tested_candidates_eq]
    exact candidates_sorted T

theorem exhaustive_enumeration_witness :
    5 ≤ 9 ∧ derived_H 5 ≠ 5 ∧
      ((∀ st, solve_range [5] st
          = (tested_candidates [5]).foldl (fun st a => test_candidate a st) st) ∧
        (∀ a, a ∈ tested_candidates [5] ↔
          a.T = 5 ∧ a.H = derived_H 5 ∧ (∀ d ∈ search_key a, d ≤ 9) ∧ (letters a).Nodup) ∧
        (tested_candidates [5]).Nodup ∧
        (tested_candidates [5]).length = 40320 ∧
        Nat.factorial 8 = 40320 ∧
        (tested_candidates [5]).Pairwise
          (fun a b => List.Lex (· < ·) (search_key a) (search_key b))) :=
  ⟨by decide, by decide, exhaustive_enumeration 5 (by decide) (by decide)⟩


/-! ### The solution table -/

/-- Every binding forced by the columns that is a solution is in the table;
the tens column and the early letters prune the choices. -/
theorem table_covers_forced :
    ∀ T ∈ List.range 10, ∀ S ∈ List.range 10,
      (T + 2 * S + (2 * T + derived_H T) / 10) % 10 = 0 →
      ∀ E ∈ List.range 10, ∀ A ∈ List.range 10,
        [T, derived_H T, E, A, S, (reconstruct T S E A 0).U].Nodup →
        ∀ O ∈ List.range 10,
          is_solution (reconstruct T S E A O) → reconstruct T S E A O ∈ solution_table := by
  decide!

theorem sum_of_ten_distinct_digits (l : List Nat) (hnd : l.Nodup) (hlen : l.length = 10)
    (hb : ∀ d ∈ l, d ≤ 9) : l.sum = 45 := by
  have hsub : l.toFinset ⊆ Finset.range 10 := by
    intro d hd
    rw [List.mem_toFinset] at hd
    exact Finset.mem_range.mpr (Nat.lt_succ_of_le (hb d hd))
  have hcard : (Finset.range 10).card ≤ l.toFinset.card := by
    rw [List.toFinset_card_of_nodup hnd, hlen, Finset.card_range]
  have hset : l.toFinset = Finset.range 10 := Finset.eq_of_subset_of_card_le hsub hcard
  have hsum : l.sum = ∑ d in l.toFinset, d := (List.sum_toFinset (fun d => d) hnd).symm ▸ by simp
  rw [hsum, hset]
  decide

/-- The columns of the sum, right to left: from the equation over digits the
hundreds column gives `U`, the thousands column `W` and the ten-thousands
column `N`, each in terms of letters to its right and the carries. -/
theorem column_forcing (N O R T H E A S W U : Nat)
    (hN : N ≤ 9) (hO : O ≤ 9) (hT : T ≤ 9) (hH : H ≤ 9) (hE : E ≤ 9) (hA : A ≤ 9)
    (hS : S ≤ 9) (hW : W ≤ 9) (hU : U ≤ 9)
    (heq : N * 10000 + O * 1000 + R * 100 + T * 10 + H + (E * 1000 + A * 100 + S * 10 + T) +
        (S * 10000 + O * 1000 + U * 100 + T * 10 + H) +
        (W * 1000 + E * 100 + S * 10 + T) = E * 10000 + A * 1000 + R * 100 + T * 10 + H) :
    (T + 2 * S + (2 * T + H) / 10) % 10 = 0 ∧
    (30 - (A + E + (T + 2 * S + (2 * T + H) / 10) / 10)) % 10 = U ∧
    (A + 40 - (2 * O + E + (A + U + E + (T + 2 * S + (2 * T + H) / 10) / 10) / 10)) % 10 = W ∧
    E - S - (2 * O + E + W + (A + U + E + (T + 2 * S + (2 * T + H) / 10) / 10) / 10) / 10
      = N := by
  have k1 : 2 * T + H = 10 * ((2 * T + H) / 10) := by omega
  have b1 : (2 * T + H) / 10 ≤ 2 := by omega
  generalize (2 * T + H) / 10 = c1 at *
  have e1 : 1000 * (N + S) + 100 * (2 * O + E + W) + 10 * (A + U + E) + (T + 2 * S + c1)
      = 1000 * E + 100 * A := by omega
  clear heq k1
  have k2 : T + 2 * S + c1 = 10 * ((T + 2 * S + c1) / 10) := by omega
  have b2 : (T + 2 * S + c1) / 10 ≤ 2 := by omega
  refine ⟨by omega, ?_⟩
  generalize (T + 2 * S + c1) / 10 = c2 at *
  have e2 : 100 * (N + S) + 10 * (2 * O + E + W) + (A + U + E + c2) = 100 * E + 10 * A := by
    omega
  clear e1 k2
  have k3 : A + U + E + c2 = 10 * ((A + U + E + c2) / 10) := by omega
  have b3 : (A + U + E + c2) / 10 ≤ 2 := by omega
  have eU : (30 - (A + E + c2)) % 10 = U := by omega
  refine ⟨eU, ?_⟩
  generalize (A + U + E + c2) / 10 = c3 at *
  have e3 : 10 * (N + S) + (2 * O + E + W + c3) = 10 * E + A := by omega
  clear e2 k3 eU
  constructor <;> omega

/-- A solution is the binding its columns force from `T`, `S`, `E`, `A`, `O`. -/
theorem reconstruct_eq (a : Assignment) (h : is_solution a) :
    reconstruct a.T a.S a.E a.A a.O = a := by
  obtain ⟨hd, hnd, heq⟩ := h
  have hsum := sum_of_ten_distinct_digits (letters a) hnd rfl hd
  obtain ⟨N, O, R, T, H, E, A, S, W, U⟩ := a
  simp only [letters, List.mem_cons, List.mem_singleton, List.not_mem_nil, or_false,
    forall_eq_or_imp, forall_eq] at hd
  obtain ⟨hN, hO, hR, hT, hH, hE, hA, hS, hW, hU⟩ := hd
  simp only [letters, List.sum_cons, List.sum_nil] at hsum
  simp only [NORTH, EAST, SOUTH, WEST, EARTH] at heq
  have eH : derived_H T = H := by
    unfold derived_H
    omega
  obtain ⟨-, eU, eW, eN⟩ := column_forcing N O R T H E A S W U hN hO hT hH hE hA hS hW hU heq
  have eR : 45 - (N + O + T + H + E + A + S + W + U) = R := by omega
  simp only [reconstruct, eH]
  rw [eU, eW, eN, eR]

theorem solution_in_table (a : Assignment) (h : is_solution a) : a ∈ solution_table := by
  have hrec := reconstruct_eq a h
  have hU0 : (reconstruct a.T a.S a.E a.A 0).U = (reconstruct a.T a.S a.E a.A a.O).U := rfl
  have hU : (reconstruct a.T a.S a.E a.A 0).U = a.U := hU0.trans (congrArg Assignment.U hrec)
  obtain ⟨hd, hnd, heq⟩ := h
  obtain ⟨hN, hO, hR, hT, hH, hE, hA, hS, hW, hU9⟩ := letters_bounds a hd
  have eH : derived_H a.T = a.H := (units_column a hH heq).symm
  have hguard1 : (a.T + 2 * a.S + (2 * a.T + derived_H a.T) / 10) % 10 = 0 := by
    rw [eH]
    simp only [NORTH, EAST, SOUTH, WEST, EARTH] at heq
    exact (column_forcing a.N a.O a.R a.T a.H a.E a.A a.S a.W a.U hN hO hT hH hE hA hS hW hU9
      heq).1
  have hguard2 : [a.T, derived_H a.T, a.E, a.A, a.S, (reconstruct a.T a.S a.E a.A 0).U].Nodup := by
    rw [hU, eH]
    refine hnd.sublist ?_
    exact List.Sublist.cons _ (List.Sublist.cons _ (List.Sublist.cons _ (List.Sublist.cons₂ _
      (List.Sublist.cons₂ _ (List.Sublist.cons₂ _ (List.Sublist.cons₂ _ (List.Sublist.cons₂ _
        (List.Sublist.cons _ (List.Sublist.cons₂ _ List.Sublist.slnil)))))))))
  have hmem := table_covers_forced a.T (List.mem_range.mpr (by omega)) a.S
    (List.mem_range.mpr (by omega)) hguard1 a.E (List.mem_range.mpr (by omega)) a.A
    (List.mem_range.mpr (by omega)) hguard2 a.O (List.mem_range.mpr (by omega))
    (by rw [hrec]; exact ⟨hd, hnd, heq⟩)
  rw [hrec] at hmem
  exact hmem

theorem table_sound : ∀ a ∈ solution_table, is_solution a := by
  decide!

theorem nodup_solution_table : solution_table.Nodup := by
  decide!

theorem mem_solution_table (a : Assignment) : a ∈ solution_table ↔ is_solution a :=
  ⟨table_sound a, solution_in_table a⟩

/-- The search over all valid `T` values finds the solutions of the table, each
once. -/
theorem found_perm_table : (found_solutions valid_T_values).Perm solution_table := by
  rw [List.perm_ext_iff_of_nodup (nodup_found_solutions _ nodup_valid_T_values)
    nodup_solution_table]
  intro a
  rw [mem_found_valid, mem_solution_table]

theorem found_count : (found_solutions valid_T_values).length = 24 :=
  found_perm_table.length_eq.trans rfl

theorem found_solutions_T1 : found_solutions [1] = [⟨2, 5, 6, 1, 8, 7, 9, 4, 0, 3⟩] := by
  have honly : ∀ a ∈ solution_table, a.T = 1 → a = ⟨2, 5, 6, 1, 8, 7, 9, 4, 0, 3⟩ := by
    decide!
  have hsol : is_solution ⟨2, 5, 6, 1, 8, 7, 9, 4, 0, 3⟩ := by
    unfold is_solution
    decide
  apply List.perm_singleton.mp
  rw [List.perm_ext_iff_of_nodup (nodup_found_solutions _ (List.nodup_singleton 1))
    (List.nodup_singleton _)]
  intro a
  rw [mem_found_solutions [1] (by decide), List.mem_singleton, List.mem_singleton]
  constructor
  · rintro ⟨hT, ha⟩
    exact honly a (solution_in_table a ha) hT
  · intro ha
    rw [ha]
    exact ⟨rfl, hsol⟩

/-- C13. Exact solution count: the search over all valid `T` values finds
exactly 24 solutions; the sequential run ends with the counter at 24 and 24
entries, a run with any worker count `n ≥ 1` under any interleaving ends with
the counter at 24 and 24 entries, and the harness, for every iteration count of
at least one, records 24 for every one of its runs, which is the count its
per-run line reports. -/
theorem exactly_24_solutions (n : Nat) (hn : 1 ≤ n) (schedule : List Nat) :
    (found_solutions valid_T_values).length = 24 ∧
      (solve_range valid_T_values ⟨0, []⟩).total_solutions = 24 ∧
      (solve_range valid_T_values ⟨0, []⟩).solutions.length = 24 ∧
      (∃ fin, run_threads n schedule ⟨0, []⟩ = some fin ∧
        fin.total_solutions = 24 ∧ fin.solutions.length = 24) ∧
      ∀ (iterations hardware_concurrency : Nat) (schedules : Nat → List Nat),
        1 ≤ iterations →
        ∃ bench, runMultipleTimes iterations hardware_concurrency schedules = some bench ∧
          bench.solutions_counts = List.replicate iterations 24 := by
  refine ⟨found_count, ?_, ?_, ?_, ?_⟩
  · rw [solve_range_fresh_total, found_count]
  · rw [← List.length_map (solve_range valid_T_values ⟨0, []⟩).solutions SolutionRecord.asg,
      solve_range_fresh_asgs, found_count]
  · obtain ⟨fin, hfin, htotal, hasgs⟩ := run_threads_fresh n hn schedule
    refine ⟨fin, hfin, ?_, ?_⟩
    · rw [htotal, found_count]
    · rw [← List.length_map fin.solutions SolutionRecord.asg, hasgs.length_eq, found_count]
  · intro iterations hardware_concurrency schedules hpos
    obtain ⟨bench, hbench, hcounts⟩ :=
      runMultipleTimes_outcome iterations hardware_concurrency schedules hpos
    refine ⟨bench, hbench, ?_⟩
    rw [hcounts, found_count]

theorem exactly_24_solutions_witness :
    1 ≤ 8 ∧
      ((found_solutions valid_T_values).length = 24 ∧
        (solve_range valid_T_values ⟨0, []⟩).total_solutions = 24 ∧
        (solve_range valid_T_values ⟨0, []⟩).solutions.length = 24 ∧
        (∃ fin, run_threads 8 [7, 0, 0, 3, 1, 1, 3] ⟨0, []⟩ = some fin ∧
          fin.total_solutions = 24 ∧ fin.solutions.length = 24) ∧
        ∀ (iterations hardware_concurrency : Nat) (schedules : Nat → List Nat),
          1 ≤ iterations →
          ∃ bench, runMultipleTimes iterations hardware_concurrency schedules = some bench ∧
            bench.solutions_counts = List.replicate iterations 24) :=
  ⟨by decide, exactly_24_solutions 8 (by decide) [7, 0, 0, 3, 1, 1, 3]⟩

/-- C14. Leading zeros are not excluded: bindings with N = 0, with E = 0, with
S = 0 and with W = 0 all reach the equation test, and solutions with a leading
zero are emitted; `solve_range` on `[1]` from an empty collection emits exactly
T=1, H=8, N=2, E=7, S=4, W=0, O=5, R=6, A=9, U=3, for which
25618 + 7941 + 45318 + 741 = 79618, and its text shows WEST as `0741`. -/
theorem leading_zeros_not_excluded :
    (⟨0, 2, 3, 1, 8, 4, 5, 6, 7, 9⟩ : Assignment) ∈ tested_candidates [1] ∧
      (⟨2, 3, 4, 1, 8, 0, 5, 6, 7, 9⟩ : Assignment) ∈ tested_candidates [1] ∧
      (⟨2, 3, 4, 1, 8, 5, 6, 0, 7, 9⟩ : Assignment) ∈ tested_candidates [1] ∧
      (⟨2, 3, 4, 1, 8, 5, 6, 7, 0, 9⟩ : Assignment) ∈ tested_candidates [1] ∧
      (solve_range [1] ⟨0, []⟩).solutions = [⟨1, ⟨2, 5, 6, 1, 8, 7, 9, 4, 0, 3⟩⟩] ∧
      (⟨2, 5, 6, 1, 8, 7, 9, 4, 0, 3⟩ : Assignment).W = 0 ∧
      NORTH ⟨2, 5, 6, 1, 8, 7, 9, 4, 0, 3⟩ = 25618 ∧
      EAST ⟨2, 5, 6, 1, 8, 7, 9, 4, 0, 3⟩ = 7941 ∧
      SOUTH ⟨2, 5, 6, 1, 8, 7, 9, 4, 0, 3⟩ = 45318 ∧
      WEST ⟨2, 5, 6, 1, 8, 7, 9, 4, 0, 3⟩ = 741 ∧
      EARTH ⟨2, 5, 6, 1, 8, 7, 9, 4, 0, 3⟩ = 79618 ∧
      25618 + 7941 + 45318 + 741 = 79618 ∧
      (solve_range [1] ⟨0, []⟩).solutions.map render
        = ["Solution 1:\nNORTH (25618) + EAST (7941) + SOUTH (45318) + WEST (0741) = EARTH (79618)\n25618 + 7941 + 45318 + 741 = 79618\n\n"] ∧
      (∃ a ∈ found_solutions valid_T_values, a.N = 0) ∧
      (∃ a ∈ found_solutions valid_T_values, a.S = 0) ∧
      (∃ a ∈ found_solutions valid_T_values, a.W = 0) := by
  have hrun : (solve_range [1] ⟨0, []⟩).solutions = [⟨1, ⟨2, 5, 6, 1, 8, 7, 9, 4, 0, 3⟩⟩] := by
    rw [fresh_solutions, found_solutions_T1]
    rfl
  have htest : ∀ a : Assignment, a.T = 1 → a.H = 8 → (letters a).Nodup →
      (∀ d ∈ letters a, d ≤ 9) → a ∈ tested_candidates [1] := by
    intro a hT hH hnd hd
    obtain ⟨hN, hO, hR, -, -, hE, hA, hS, hW, hU⟩ := letters_bounds a hd
    rw [tested_candidates_eq, mem_candidates]
    exact ⟨by rw [hT]; exact List.mem_singleton.mpr rfl, by rw [hH, hT]; rfl, hnd,
      by omega, by omega, by omega, by omega, by omega, by omega, by omega, by omega⟩
  refine ⟨htest _ rfl rfl (by decide) (by decide), htest _ rfl rfl (by decide) (by decide),
    htest _ rfl rfl (by decide) (by decide), htest _ rfl rfl (by decide) (by decide),
    hrun, rfl, by decide, by decide, by decide, by decide, by decide, by decide, ?_,
    ⟨⟨0, 2, 7, 8, 4, 6, 3, 5, 1, 9⟩, (mem_found_valid _).mpr (by unfold is_solution; decide), rfl⟩,
    ⟨⟨2, 9, 6, 8, 4, 5, 1, 0, 7, 3⟩, (mem_found_valid _).mpr (by unfold is_solution; decide), rfl⟩,
    ⟨⟨2, 5, 6, 1, 8, 7, 9, 4, 0, 3⟩, (mem_found_valid _).mpr (by unfold is_solution; decide), rfl⟩⟩
  rw [hrun]
  decide


/-! ### The order of the found solutions -/

/-- The candidates of an increasing list of `T` values come in strictly
increasing lexicographic order of (T, N, E, S, W, O, R, A, U). -/
theorem candidates_sorted_all (T_values : List Nat) (hT : T_values.Pairwise (· < ·)) :
    (candidates T_values).Pairwise
      fun a b => List.Lex (· < ·) (a.T :: search_key a) (b.T :: search_key b) := by
  have hTof : ∀ T, ∀ a ∈ candidates [T], a.T = T := by
    intro T a ha
    exact List.mem_singleton.mp ((mem_candidates [T] a).mp ha).1
  rw [candidates_flatMap]
  refine List.pairwise_flatMap.mpr ⟨?_, ?_⟩
  · intro T _
    refine ((List.Pairwise.and_mem.mp (candidates_sorted T))).imp ?_
    rintro a b ⟨ha, hb, hlex⟩
    rw [hTof T a ha, hTof T b hb]
    exact List.Lex.cons hlex
  · refine hT.imp ?_
    intro T1 T2 hlt a ha b hb
    rw [hTof T1 a ha, hTof T2 b hb]
    exact List.Lex.rel hlt

/-- The sequential search over the valid `T` values finds the solutions in the
order of the table. -/
theorem found_eq_table : found_solutions valid_T_values = solution_table := by
  have hvalid : valid_T_values.Pairwise (· < ·) := by
    rw [valid_T_values_eq]
    decide
  have hfound : (found_solutions valid_T_values).Pairwise
      fun a b => List.Lex (· < ·) (a.T :: search_key a) (b.T :: search_key b) := by
    rw [found_solutions_eq]
    exact (candidates_sorted_all valid_T_values hvalid).filter _
  have htable : solution_table.Pairwise
      fun a b => List.Lex (· < ·) (a.T :: search_key a) (b.T :: search_key b) := by
    decide!
  haveI : IsAntisymm Assignment
      (fun a b => List.Lex (· < ·) (a.T :: search_key a) (b.T :: search_key b)) :=
    ⟨fun a b h1 h2 => absurd h2 (asymm h1)⟩
  exact List.eq_of_perm_of_sorted found_perm_table hfound htable

end Cryptarithm
